import Mathlib

/-!
libNTS: use-def tracking (`variables.cpp`) and logic nodes (`logic.cpp`).

A shallow embedding of the `VariableUse` / `VariableUseContainer` machinery and of the
terms and formulas of `logic.cpp`: their constructors, `clone` and `print`.

Objects that C++ identifies by address are identified here by natural numbers:
* `Addr`   : the address of a `VariableUse` object (`this`),
* `VarId`  : the address of a `Variable`,
* `NodeId` : the list node an `std::list<VariableUse*>::iterator` designates.

Every operation returns `Option`: `none` is undefined behaviour in the C++ program
(a member function called on an object that is not alive, an object constructed over a
live one, `erase` called with an iterator that designates no node of the list).
-/

namespace nts

abbrev Addr := Nat
abbrev VarId := Nat
abbrev NodeId := Nat
abbrev UserPtr := Nat

/-- The enumeration `VariableUse::UserType`. -/
inductive UserType where
  | VariableReference
  | ArrayWrite
  | CallTransitionRule
  | Havoc
deriving DecidableEq, Repr

/-- The data members of `VariableUse`.  `_var = none` is `nullptr`; `_pos = none` is a
default-constructed iterator; `user_ptr = none` is a `user_ptr` no constructor has written to. -/
structure VariableUse where
  _var : Option VarId
  _pos : Option NodeId
  user_type : UserType
  user_ptr : Option UserPtr
deriving DecidableEq, Repr

/-- The part of the program state the tracking code reads and writes: the live `VariableUse`
objects, the list `_uses` of every `Variable` (each node with the `VariableUse *` it stores),
and the next list node to be allocated. -/
structure Heap where
  uses : Addr → Option VariableUse
  _uses : VarId → List (NodeId × Addr)
  next : NodeId

/-- A state with no `VariableUse` and with every `_uses` list empty. -/
def Heap.empty : Heap := { uses := fun _ => none, _uses := fun _ => [], next := 0 }

/-- The uses of variable `v` as enumerated from its list, in list order. -/
def Heap.useList (h : Heap) (v : VarId) : List Addr := (h._uses v).map Prod.snd

/-- The function `VariableUse::get`, on a live object. -/
def get (h : Heap) (this : Addr) : Option (Option VarId) := (h.uses this).map (·._var)

/-- The call `std::list::erase ( pos )`: defined when `pos` designates a node of the list,
which it unlinks. -/
def eraseNode (l : List (NodeId × Addr)) (pos : Option NodeId) : Option (List (NodeId × Addr)) :=
  match pos with
  | none => none
  | some n => if l.any (fun e => e.1 == n) then some (l.eraseP (fun e => e.1 == n)) else none

/-- The function `VariableUse::release` (variables.cpp 72-82). -/
def release (h : Heap) (this : Addr) : Option (Heap × Option VarId) :=
  match h.uses this with
  | none => none
  | some u =>
    match u._var with
    | none => some (h, none)
    | some v =>
      match eraseNode (h._uses v) u._pos with
      | none => none
      | some l =>
        some ({ h with
                _uses := Function.update h._uses v l
                uses := Function.update h.uses this (some { u with _var := none }) }, some v)

/-- The function `VariableUse::set` (variables.cpp 62-70): `insert ( cend(), this )` links a
new node at the tail and returns the iterator to it. -/
def set (h : Heap) (this : Addr) (v : Option VarId) : Option Heap :=
  match release h this with
  | none => none
  | some (h1, _) =>
    match v with
    | none => some h1
    | some w =>
      match h1.uses this with
      | none => none
      | some u =>
        some { uses := Function.update h1.uses this (some { u with _pos := some h1.next, _var := some w })
               _uses := Function.update h1._uses w (h1._uses w ++ [(h1.next, this)])
               next := h1.next + 1 }

/-- The constructor `VariableUse ( UserType type, UserPtr ptr )` (variables.cpp 35-40), run at
address `this`. -/
def construct (h : Heap) (this : Addr) (type : UserType) (ptr : UserPtr) : Option Heap :=
  match h.uses this with
  | some _ => none
  | none =>
    let u : VariableUse := { _var := none, _pos := none, user_type := type, user_ptr := some ptr }
    some { h with uses := Function.update h.uses this (some u) }

/-- The constructor `VariableUse ( VariableReference & vref )` (variables.cpp 14-19). -/
def construct_vref (h : Heap) (this : Addr) (vref : UserPtr) : Option Heap :=
  construct h this UserType.VariableReference vref

/-- The constructor `VariableUse ( ArrayWrite & awr )` (variables.cpp 21-26). -/
def construct_arr_wr (h : Heap) (this : Addr) (awr : UserPtr) : Option Heap :=
  construct h this UserType.ArrayWrite awr

/-- The constructor `VariableUse ( CallTransitionRule & ctr )` (variables.cpp 28-33). -/
def construct_ctr (h : Heap) (this : Addr) (ctr : UserPtr) : Option Heap :=
  construct h this UserType.CallTransitionRule ctr

/-- The copy constructor (variables.cpp 42-48): only `user_type` is taken from `orig`. -/
def copy_construct (h : Heap) (this orig : Addr) : Option Heap :=
  match h.uses this, h.uses orig with
  | none, some o =>
    let u : VariableUse := { _var := none, _pos := none, user_type := o.user_type, user_ptr := none }
    let h1 : Heap := { h with uses := Function.update h.uses this (some u) }
    match get h1 orig with
    | none => none
    | some v => set h1 this v
  | _, _ => none

/-- The move constructor (variables.cpp 50-55): only `user_type` is taken from `old`. -/
def move_construct (h : Heap) (this old : Addr) : Option Heap :=
  match h.uses this, h.uses old with
  | none, some o =>
    let u : VariableUse := { _var := none, _pos := none, user_type := o.user_type, user_ptr := none }
    let h1 : Heap := { h with uses := Function.update h.uses this (some u) }
    match release h1 old with
    | none => none
    | some (h2, v) => set h2 this v
  | _, _ => none

/-- The destructor (variables.cpp 57-60); afterwards no object lives at `this`. -/
def destroy (h : Heap) (this : Addr) : Option Heap :=
  match release h this with
  | none => none
  | some (h1, _) => some { h1 with uses := Function.update h1.uses this none }

/-- The operator `operator= ( Variable * var )` (variables.cpp 84-88). -/
def assign_var (h : Heap) (this : Addr) (var : Option VarId) : Option Heap :=
  set h this var

/-- The operator `operator= ( const VariableUse & orig )` (variables.cpp 90-94). -/
def copy_assign (h : Heap) (this orig : Addr) : Option Heap :=
  match get h orig with
  | none => none
  | some v => set h this v

/-- The operator `operator= ( VariableUse && old )` (variables.cpp 96-100). -/
def move_assign (h : Heap) (this old : Addr) : Option Heap :=
  match release h old with
  | none => none
  | some (h1, v) => set h1 this v

/-- One operation on `VariableUse` values. -/
inductive Op where
  | construct (this : Addr) (type : UserType) (ptr : UserPtr)
  | set (this : Addr) (v : Option VarId)
  | release (this : Addr)
  | copy_construct (this orig : Addr)
  | move_construct (this old : Addr)
  | copy_assign (this orig : Addr)
  | move_assign (this old : Addr)
  | assign_var (this : Addr) (var : Option VarId)
  | destroy (this : Addr)
deriving DecidableEq, Repr

/-- Run one operation. -/
def step (h : Heap) : Op → Option Heap
  | Op.construct a k p => construct h a k p
  | Op.set a v => set h a v
  | Op.release a => (release h a).map Prod.fst
  | Op.copy_construct a s => copy_construct h a s
  | Op.move_construct a s => move_construct h a s
  | Op.copy_assign a s => copy_assign h a s
  | Op.move_assign a s => move_assign h a s
  | Op.assign_var a v => assign_var h a v
  | Op.destroy a => destroy h a

/-- Run a sequence of operations, left to right. -/
def run (h : Heap) : List Op → Option Heap
  | [] => some h
  | op :: ops =>
    match step h op with
    | none => none
    | some h1 => run h1 ops

/-- What C++ itself demands of an operation: a constructor runs where no object lives, every
other operand is a live object. -/
def Op.valid (h : Heap) : Op → Prop
  | Op.construct a _ _ => h.uses a = none
  | Op.set a _ => (h.uses a).isSome
  | Op.release a => (h.uses a).isSome
  | Op.copy_construct a s => h.uses a = none ∧ (h.uses s).isSome
  | Op.move_construct a s => h.uses a = none ∧ (h.uses s).isSome
  | Op.copy_assign a s => (h.uses a).isSome ∧ (h.uses s).isSome
  | Op.move_assign a s => (h.uses a).isSome ∧ (h.uses s).isSome
  | Op.assign_var a _ => (h.uses a).isSome
  | Op.destroy a => (h.uses a).isSome

/-- The consistency of the back-reference graph: list nodes are distinct and older than
`next`; every node of `v`'s list stores a live use that is resolved to `v` and whose `_pos`
designates that node; every live use resolved to `v` has its `_pos` node in `v`'s list. -/
structure WF (h : Heap) : Prop where
  ids_lt : ∀ v n a, (n, a) ∈ h._uses v → n < h.next
  ids_nodup : ∀ v, ((h._uses v).map Prod.fst).Nodup
  entry_live : ∀ v n a, (n, a) ∈ h._uses v →
    ∃ u, h.uses a = some u ∧ u._var = some v ∧ u._pos = some n
  resolved_entry : ∀ a u v, h.uses a = some u → u._var = some v →
    ∃ n, u._pos = some n ∧ (n, a) ∈ h._uses v

/-! ## `VariableUseContainer` -/

/-- The class `VariableUseContainer`, a `std::vector < VariableUse >` with the owner's tag and
pointer; `elems` are the addresses of the vector's elements, first to last. -/
structure VariableUseContainer where
  _type : UserType
  _ptr : UserPtr
  elems : List Addr
deriving DecidableEq, Repr

/-- The constructor `VariableUseContainer ( VariableReference & vref )` (variables.cpp 106-110). -/
def VariableUseContainer.of_vref (vref : UserPtr) : VariableUseContainer :=
  { _type := UserType.VariableReference, _ptr := vref, elems := [] }

/-- The constructor `VariableUseContainer ( ArrayWrite & arr_wr )` (variables.cpp 112-116). -/
def VariableUseContainer.of_arr_wr (arr_wr : UserPtr) : VariableUseContainer :=
  { _type := UserType.ArrayWrite, _ptr := arr_wr, elems := [] }

/-- The constructor `VariableUseContainer ( CallTransitionRule & ctr )` (variables.cpp 118-122). -/
def VariableUseContainer.of_ctr (ctr : UserPtr) : VariableUseContainer :=
  { _type := UserType.CallTransitionRule, _ptr := ctr, elems := [] }

/-- The constructor `VariableUseContainer ( Havoc & hvc )` (variables.cpp 124-128). -/
def VariableUseContainer.of_hvc (hvc : UserPtr) : VariableUseContainer :=
  { _type := UserType.Havoc, _ptr := hvc, elems := [] }

/-- What is outside the program's control when `push_back` runs: the address `tmp` of the
temporary `VariableUse ( _type, _ptr )`, the address `slot` of the new last element and, when
the vector reallocates its storage, the new addresses `moved` of the elements already held
and whether they are move-constructed (`by_move`) or copy-constructed there. -/
structure Growth where
  tmp : Addr
  slot : Addr
  moved : Option (List Addr)
  by_move : Bool
deriving DecidableEq, Repr

/-- Reallocation of the vector's storage: each element is constructed at its new address
from the one at its old address, then the old elements are destroyed. -/
def relocate_ops (by_move : Bool) (new old : List Addr) : List Op :=
  (new.zip old).map (fun e => if by_move then Op.move_construct e.1 e.2
                              else Op.copy_construct e.1 e.2)
    ++ old.map Op.destroy

/-- The operations on `VariableUse` objects that `VariableUseContainer::push_back ( v )`
(variables.cpp 130-134) performs: the temporary is constructed, `std::vector::push_back`
move-constructs the new last element from it and relocates the others if it reallocates,
the temporary is destroyed, and `back() = v` assigns to the new last element. -/
def push_back_ops (c : VariableUseContainer) (g : Growth) (v : Option VarId) : List Op :=
  [Op.construct g.tmp c._type c._ptr, Op.move_construct g.slot g.tmp]
    ++ (match g.moved with
        | none => []
        | some new => relocate_ops g.by_move new c.elems)
    ++ [Op.destroy g.tmp, Op.assign_var g.slot v]

/-- The elements of the vector after `push_back`. -/
def grown (c : VariableUseContainer) (g : Growth) : List Addr :=
  (match g.moved with
   | none => c.elems
   | some new => new) ++ [g.slot]

/-- The function `VariableUseContainer::push_back` (variables.cpp 130-134). -/
def VariableUseContainer.push_back (h : Heap) (c : VariableUseContainer) (g : Growth)
    (v : Option VarId) : Option (Heap × VariableUseContainer) :=
  if (match g.moved with
      | none => true
      | some new => new.length == c.elems.length) then
    match run h (push_back_ops c g v) with
    | none => none
    | some h' => some (h', { c with elems := grown c g })
  else none

/-- Push variables one at a time. -/
def push_all (h : Heap) (c : VariableUseContainer) :
    List (VarId × Growth) → Option (Heap × VariableUseContainer)
  | [] => some (h, c)
  | (v, g) :: rest =>
    match c.push_back h g (some v) with
    | none => none
    | some (h1, c1) => push_all h1 c1 rest

/-- The addresses a `push_back` is given are unused and distinct, and a reallocation gives
one new address for each element held. -/
def Growth.fresh (h : Heap) (c : VariableUseContainer) (g : Growth) : Prop :=
  h.uses g.tmp = none ∧ h.uses g.slot = none ∧ g.tmp ≠ g.slot ∧
  match g.moved with
  | none => True
  | some new => new.length = c.elems.length ∧ new.Nodup ∧ g.tmp ∉ new ∧ g.slot ∉ new ∧
      ∀ a ∈ new, h.uses a = none

/-- The same demand stated on the elements held, for a container that holds every live use:
the addresses a `push_back` is given are not those of elements and are distinct. -/
def Growth.ok (elems : List Addr) (g : Growth) : Prop :=
  g.tmp ∉ elems ∧ g.slot ∉ elems ∧ g.tmp ≠ g.slot ∧
  match g.moved with
  | none => True
  | some new => new.length = elems.length ∧ new.Nodup ∧ g.tmp ∉ new ∧ g.slot ∉ new ∧
      ∀ a ∈ new, a ∉ elems

/-- Every push of the sequence is given addresses that are unused when it runs. -/
def pushes_ok (c : VariableUseContainer) : List (VarId × Growth) → Prop
  | [] => True
  | (_, g) :: rest => g.ok c.elems ∧ pushes_ok { c with elems := grown c g } rest

/-- Three pushes: the second and the third reallocate, one by move and one by copy. -/
def samplePushes : List (VarId × Growth) :=
  [(3, { tmp := 100, slot := 1, moved := none, by_move := true }),
   (4, { tmp := 100, slot := 12, moved := some [11], by_move := true }),
   (3, { tmp := 100, slot := 23, moved := some [21, 22], by_move := false })]

/-- The field `user_type` of the object at `a`. -/
def utype (h : Heap) (a : Addr) : Option UserType := (h.uses a).map (·.user_type)

/-- The field `user_ptr` of the object at `a`. -/
def uptr (h : Heap) (a : Addr) : Option (Option UserPtr) := (h.uses a).map (·.user_ptr)

/-- The container `c` holds exactly the live uses of `h`, each at its own address and with
the container's owner tag, and `h` is consistent. -/
structure Held (h : Heap) (c : VariableUseContainer) : Prop where
  wf : WF h
  nodup : c.elems.Nodup
  live : ∀ a, (h.uses a).isSome ↔ a ∈ c.elems
  typed : ∀ a ∈ c.elems, utype h a = some c._type
  unstamped : ∀ a ∈ c.elems, uptr h a = some none

/-! ## Creating and destroying uses of one variable -/

/-- How a use resolved to a given variable comes to be: constructed and then `set`, or
copy-constructed from a use that is resolved to the variable. -/
inductive Creation where
  | by_set (type : UserType) (ptr : UserPtr)
  | by_copy (orig : Addr)
deriving DecidableEq, Repr

/-- The operations that create a use at `a` resolved to `v`. -/
def Creation.ops (v : VarId) (a : Addr) : Creation → List Op
  | Creation.by_set k p => [Op.construct a k p, Op.set a (some v)]
  | Creation.by_copy s => [Op.copy_construct a s]

/-- The operations that create the uses of `cs`, in order. -/
def create_ops (v : VarId) : List (Addr × Creation) → List Op
  | [] => []
  | (a, c) :: rest => c.ops v a ++ create_ops v rest

/-- Every copy is made from a use resolved to `v`: one created earlier (`made`) or one that
is resolved to `v` in the state `h` the creations start from. -/
def sources_ok (h : Heap) (v : VarId) : List Addr → List (Addr × Creation) → Prop
  | _, [] => True
  | made, (a, Creation.by_set _ _) :: rest => sources_ok h v (a :: made) rest
  | made, (a, Creation.by_copy s) :: rest =>
    (s ∈ made ∨ get h s = some (some v)) ∧ sources_ok h v (a :: made) rest

/-! ## Types and terms (`logic.cpp`) -/

/-- Modelled from the spec: the class `ScalarType` of data_types.hpp, which is not among the
sources; an atomic value domain.  `Bool` and `Integral` are the two the sources name
(`ScalarType::Bool()`, `ScalarType::Integral()`); `Real` stands for the further ones. -/
inductive ScalarType where
  | Bool
  | Integral
  | Real
deriving DecidableEq, Repr

/-- Modelled from the spec: the class `DataType` of data_types.hpp, which is not among the
sources; a scalar type, or an array of it when the array marker is set. -/
structure DataType where
  scalar : ScalarType
  array : Bool
deriving DecidableEq, Repr

/-- Modelled from the spec: `DataType::is_scalar`. -/
def DataType.is_scalar (t : DataType) : Bool := !t.array

/-- Modelled from the spec: what a `const Variable &` gives access to besides the use-list:
the identity of the variable, its name and its type (variables.hpp is not among the
sources). -/
structure Variable where
  addr : VarId
  name : String
  type : DataType
deriving DecidableEq, Repr

/-- The enumeration `ArithOp` (its enumerants as in `to_str`, logic.cpp 35-57). -/
inductive ArithOp where
  | Add
  | Sub
  | Mul
  | Div
  | Mod
deriving DecidableEq, Repr

/-- The concrete `Term` classes of logic.cpp with their data members; the type that the base
class `Term` caches is the field `type` of `UserConstant` and of `ArithmeticOperation`, and
is computed by `Term.type` for the other two. -/
inductive Term where
  | IntConstant (value : Int)
  | UserConstant (type : DataType) (value : String)
  | VariableReference (var : Variable) (primed : Bool)
  | ArithmeticOperation (op : ArithOp) (type : DataType) (t1 t2 : Term)
deriving DecidableEq, Repr

/-- The function `Term::type`: the type given to the base class by each constructor
(logic.cpp 573-575, 594-597, 637-639, 516-519). -/
def Term.type : Term → DataType
  | Term.IntConstant _ => { scalar := ScalarType.Integral, array := false }
  | Term.UserConstant t _ => t
  | Term.VariableReference var _ => var.type
  | Term.ArithmeticOperation _ t _ _ => t

/-- The virtual function `clone` of the `Term` classes (logic.cpp 580-583, 628-631, 645-648,
559-562 with the copy constructor 527-533). -/
def Term.clone : Term → Term
  | Term.IntConstant value => Term.IntConstant value
  | Term.UserConstant t value => Term.UserConstant t value
  | Term.VariableReference var primed => Term.VariableReference var primed
  | Term.ArithmeticOperation op t t1 t2 => Term.ArithmeticOperation op t t1.clone t2.clone

/-- The constructor `VariableReference ( const Variable & var, bool primed )` (logic.cpp
637-643) in a state `h` of the use lists: it initialises `Leaf ( var.type() )`,
`_var ( &var )` and `_primed ( primed )`, and runs no operation on a `VariableUse`. -/
def VariableReference.construct (h : Heap) (var : Variable) (primed : Bool) : Heap × Term :=
  (h, Term.VariableReference var primed)

/-- The function `VariableReference::clone` (logic.cpp 645-648):
`new VariableReference ( *_var, _primed )`. -/
def VariableReference.clone (h : Heap) (var : Variable) (primed : Bool) : Heap × Term :=
  VariableReference.construct h var primed

/-- The exception `TypeError`. -/
inductive Error where
  | TypeError
deriving DecidableEq, Repr

/-- The data members of `QuantifiedType`; `none` is a null `unique_ptr`. -/
structure QuantifiedType where
  _t : DataType
  _from : Option Term
  _to : Option Term
deriving DecidableEq, Repr

/-- The constructor `QuantifiedType ( DataType t )` (logic.cpp 221-229). -/
def QuantifiedType.construct (t : DataType) : Except Error QuantifiedType :=
  if !t.is_scalar then Except.error Error.TypeError
  else Except.ok { _t := t, _from := none, _to := none }

/-- The constructor `QuantifiedType ( DataType t, unique_ptr<Term> from, unique_ptr<Term> to )`
(logic.cpp 231-245).  The member `_t` has no initialiser and is assigned on line 241, so on
line 238 it holds what the default constructor of `DataType` gave it: `dflt`. -/
def QuantifiedType.construct_range (dflt : DataType) (t : DataType) (from_ to_ : Term) :
    Except Error QuantifiedType :=
  if !t.is_scalar then Except.error Error.TypeError
  else if from_.type != dflt || to_.type != dflt then Except.error Error.TypeError
  else Except.ok { _t := t, _from := some from_, _to := some to_ }

/-! ## Operators, formulas, printing and cloning (`logic.cpp`) -/

/-- The enumeration `BoolOp` (its enumerants as in `to_str`, logic.cpp 14-33). -/
inductive BoolOp where
  | And
  | Or
  | Imply
  | Equiv
deriving DecidableEq, Repr

/-- The enumeration `RelationOp` (its enumerants as in `to_str`, logic.cpp 59-84). -/
inductive RelationOp where
  | eq
  | neq
  | lt
  | leq
  | gt
  | geq
deriving DecidableEq, Repr

/-- The enumeration `Quantifier` (its enumerants as in `to_str`, logic.cpp 86-99). -/
inductive Quantifier where
  | Forall
  | Exists
deriving DecidableEq, Repr

/-- The function `to_str ( BoolOp )` (logic.cpp 14-33); the `default` branch is taken by no
enumerant. -/
def BoolOp.to_str : BoolOp → String
  | BoolOp.And => "&&"
  | BoolOp.Or => "||"
  | BoolOp.Imply => "=>"
  | BoolOp.Equiv => "<=>"

/-- The function `to_str ( ArithOp )` (logic.cpp 35-57); the `default` branch is taken by no
enumerant. -/
def ArithOp.to_str : ArithOp → String
  | ArithOp.Add => "+"
  | ArithOp.Sub => "-"
  | ArithOp.Mul => "*"
  | ArithOp.Div => "/"
  | ArithOp.Mod => "%"

/-- The function `to_str ( RelationOp )` (logic.cpp 59-84); the `default` branch is taken by
no enumerant. -/
def RelationOp.to_str : RelationOp → String
  | RelationOp.eq => "="
  | RelationOp.neq => "!="
  | RelationOp.lt => "<"
  | RelationOp.leq => "<="
  | RelationOp.gt => ">"
  | RelationOp.geq => ">="

/-- The function `to_str ( Quantifier )` (logic.cpp 86-99); the `default` branch is taken by
no enumerant. -/
def Quantifier.to_str : Quantifier → String
  | Quantifier.Forall => "forall"
  | Quantifier.Exists => "exists"

/-- Modelled from the spec: `DataType::scalar_type` of data_types.hpp, which is not among the
sources; it fails (`none`) on a type that is not scalar. -/
def DataType.scalar_type (t : DataType) : Option ScalarType :=
  if t.is_scalar then some t.scalar else none

/-- Modelled from the spec: the function `coerce` on `DataType`, which is not among the
sources: two scalar types of the same kind coerce to that kind, scalar types of different
kinds fail with `TypeError`.  The spec gives no rule for an operand that is not scalar; no
statement below depends on the answer given here for one. -/
def coerce (a b : DataType) : Except Error DataType :=
  if a.is_scalar && b.is_scalar && a.scalar == b.scalar then Except.ok a
  else Except.error Error.TypeError

/-- Modelled from the spec: the template `to_csv` of to_csv.hpp, which is not among the
sources: the items rendered in order with the separator between consecutive ones. -/
def to_csv (items : List String) (sep : String) : String :=
  match items with
  | [] => ""
  | [x] => x
  | x :: y :: rest => x ++ sep ++ to_csv (y :: rest) sep

/-- The function `print` of the `Term` classes (logic.cpp 585-588, 623-626, 650-655,
564-567). -/
def Term.print : Term → String
  | Term.IntConstant value => toString value
  | Term.UserConstant _ value => value
  | Term.VariableReference var primed => var.name ++ (if primed then "'" else "")
  | Term.ArithmeticOperation op _ t1 t2 =>
    "( " ++ t1.print ++ " " ++ op.to_str ++ " " ++ t2.print ++ " )"

/-- The constructor `ArithmeticOperation ( ArithOp op, unique_ptr<Term> t1, unique_ptr<Term>
t2 )` (logic.cpp 516-525), for a coercion function `c`: the base class is given
`c ( t1->type(), t2->type() )`, whose exception leaves the constructor. -/
def ArithmeticOperation.construct (c : DataType → DataType → Except Error DataType)
    (op : ArithOp) (t1 t2 : Term) : Except Error Term :=
  match c t1.type t2.type with
  | Except.error e => Except.error e
  | Except.ok t => Except.ok (Term.ArithmeticOperation op t t1 t2)

/-- The data members of `QuantifiedVariableList`. -/
structure QuantifiedVariableList where
  _q : Quantifier
  _qtype : QuantifiedType
  _vars : List Variable
deriving DecidableEq, Repr

/-- The concrete `Formula` classes of logic.cpp with their data members. -/
inductive Formula where
  | FormulaBop (op : BoolOp) (f1 f2 : Formula)
  | FormulaNot (f : Formula)
  | QuantifiedFormula (qvlist : QuantifiedVariableList) (f : Formula)
  | Havoc (vars : List Variable)
  | BooleanTerm (t : Term)
  | Relation (op : RelationOp) (type : DataType) (t1 t2 : Term)
deriving DecidableEq, Repr

/-- The constructor `BooleanTerm ( unique_ptr<Term> t )` (logic.cpp 443-451). -/
def BooleanTerm.construct (t : Term) : Except Error Formula :=
  if !t.type.is_scalar then Except.error Error.TypeError
  else
    match t.type.scalar_type with
    | none => Except.error Error.TypeError
    | some s =>
      if s != ScalarType.Bool then Except.error Error.TypeError
      else Except.ok (Formula.BooleanTerm t)

/-- The constructor `Relation ( RelationOp op, unique_ptr<Term> t1, unique_ptr<Term> t2 )`
(logic.cpp 477-483), for a coercion function `c`. -/
def Relation.construct (c : DataType → DataType → Except Error DataType)
    (op : RelationOp) (t1 t2 : Term) : Except Error Formula :=
  match c t1.type t2.type with
  | Except.error e => Except.error e
  | Except.ok t => Except.ok (Formula.Relation op t t1 t2)

/-- The constructor `FormulaBop ( BoolOp op, unique_ptr<Formula> f1, unique_ptr<Formula> f2 )`
(logic.cpp 139-146). -/
def FormulaBop.construct (op : BoolOp) (f1 f2 : Formula) : Formula :=
  Formula.FormulaBop op f1 f2

/-- The constructor `FormulaNot ( unique_ptr<Formula> f )` (logic.cpp 186-190). -/
def FormulaNot.construct (f : Formula) : Formula := Formula.FormulaNot f

/-- The constructor `Havoc ( const std::initializer_list < const Variable * > & vars )`
(logic.cpp 406-410) in a state `h` of the use lists: it copies the pointers and runs no
operation on a `VariableUse`. -/
def Havoc.construct (h : Heap) (vars : List Variable) : Heap × Formula :=
  (h, Formula.Havoc vars)

/-- The function `Havoc::clone` (logic.cpp 424-427) with the copy constructor (412-416), in a
state `h` of the use lists. -/
def Havoc.clone (h : Heap) (vars : List Variable) : Heap × Formula :=
  (h, Formula.Havoc vars)

/-- The operator `operator<< ( ostream &, const QuantifiedType & )` (logic.cpp 266-276);
`render` is `ScalarType::print`, which is not among the sources.  There is no text (`none`)
when `scalar_type()` fails or when `_from` is set and the null `_to` is dereferenced. -/
def QuantifiedType.print (render : ScalarType → String) (qt : QuantifiedType) :
    Option String :=
  match qt._t.scalar_type with
  | none => none
  | some s =>
    match qt._from, qt._to with
    | none, _ => some (render s)
    | some f, some t => some (render s ++ "[" ++ f.print ++ ", " ++ t.print ++ "]")
    | some _, none => none

/-- The operator `operator<< ( ostream &, const QuantifiedVariableList & )` (logic.cpp
339-352). -/
def QuantifiedVariableList.print (render : ScalarType → String)
    (qvl : QuantifiedVariableList) : Option String :=
  match qvl._qtype.print render with
  | none => none
  | some ty =>
    some (qvl._q.to_str ++ " " ++ to_csv (qvl._vars.map (fun v => v.name)) ", " ++ " : " ++ ty)

/-- The function `print` of the `Formula` classes (logic.cpp 177-180, 212-215, 397-400,
429-437, 468-471, 507-510); `none` when a quantified type inside has no text. -/
def Formula.print (render : ScalarType → String) : Formula → Option String
  | Formula.FormulaBop op f1 f2 =>
    match f1.print render, f2.print render with
    | some p1, some p2 => some ("( " ++ p1 ++ " " ++ op.to_str ++ " " ++ p2 ++ " )")
    | _, _ => none
  | Formula.FormulaNot f =>
    match f.print render with
    | some p => some ("not " ++ p)
    | none => none
  | Formula.QuantifiedFormula qvlist f =>
    match qvlist.print render, f.print render with
    | some pq, some pf => some (pq ++ " . " ++ pf)
    | _, _ => none
  | Formula.Havoc vars => some ("havoc ( " ++ to_csv (vars.map (fun v => v.name)) ", " ++ " )")
  | Formula.BooleanTerm t => some t.print
  | Formula.Relation op _ t1 t2 =>
    some ("( " ++ t1.print ++ " " ++ op.to_str ++ " " ++ t2.print ++ " )")

/-- The state that cloning a formula runs in: the use lists, and the address the next
`Variable` to be allocated gets. -/
structure Store where
  heap : Heap
  next_var : VarId

/-- Modelled from the spec: `Variable::clone` of variables.hpp, which is not among the
sources: a fresh variable, with a new identity and with the name and type of the original. -/
def Variable.clone (v : Variable) (addr : VarId) : Variable :=
  { addr := addr, name := v.name, type := v.type }

/-- The copy constructor of `QuantifiedType` (logic.cpp 247-257); `none` when `_from` is set
and the null `_to` is dereferenced. -/
def QuantifiedType.copy (orig : QuantifiedType) : Option QuantifiedType :=
  match orig._from with
  | none => some { _t := orig._t, _from := none, _to := none }
  | some f =>
    match orig._to with
    | none => none
    | some t => some { _t := orig._t, _from := some f.clone, _to := some t.clone }

/-- The loop of the copy constructor of `QuantifiedVariableList` (logic.cpp 310-314): each
variable is cloned, in order, and the clone is appended. -/
def clone_vars (next : VarId) : List Variable → List Variable × VarId
  | [] => ([], next)
  | v :: rest => (v.clone next :: (clone_vars (next + 1) rest).1, (clone_vars (next + 1) rest).2)

/-- The copy constructor of `QuantifiedVariableList` (logic.cpp 306-315); it runs no operation
on a `VariableUse`. -/
def QuantifiedVariableList.copy (orig : QuantifiedVariableList) (s : Store) :
    Option (QuantifiedVariableList × Store) :=
  match orig._qtype.copy with
  | none => none
  | some qt =>
    some ({ _q := orig._q, _qtype := qt, _vars := (clone_vars s.next_var orig._vars).1 },
          { heap := s.heap, next_var := (clone_vars s.next_var orig._vars).2 })

/-- The virtual function `clone` of the `Formula` classes with their copy constructors
(logic.cpp 148-153 and 172-175, 192-195 and 207-210, 379-383 and 392-395, 412-416 and
424-427, 453-456 and 463-466, 485-491 and 502-505). -/
def Formula.clone : Formula → Store → Option (Formula × Store)
  | Formula.FormulaBop op f1 f2, s =>
    match f1.clone s with
    | none => none
    | some (g1, s1) =>
      match f2.clone s1 with
      | none => none
      | some (g2, s2) => some (Formula.FormulaBop op g1 g2, s2)
  | Formula.FormulaNot f, s =>
    match f.clone s with
    | none => none
    | some (g, s1) => some (Formula.FormulaNot g, s1)
  | Formula.QuantifiedFormula qvlist f, s =>
    match qvlist.copy s with
    | none => none
    | some (q, s1) =>
      match f.clone s1 with
      | none => none
      | some (g, s2) => some (Formula.QuantifiedFormula q g, s2)
  | Formula.Havoc vars, s => some (Formula.Havoc vars, s)
  | Formula.BooleanTerm t, s => some (Formula.BooleanTerm t.clone, s)
  | Formula.Relation op type t1 t2, s => some (Formula.Relation op type t1.clone t2.clone, s)

/-- No `QuantifiedFormula` occurs in the formula. -/
def Formula.quantifier_free : Formula → Bool
  | Formula.FormulaBop _ f1 f2 => f1.quantifier_free && f2.quantifier_free
  | Formula.FormulaNot f => f.quantifier_free
  | Formula.QuantifiedFormula _ _ => false
  | Formula.Havoc _ => true
  | Formula.BooleanTerm _ => true
  | Formula.Relation _ _ _ _ => true

/-- The bounds of the range are both present or both absent, as every constructor leaves
them. -/
def QuantifiedType.paired (qt : QuantifiedType) : Bool :=
  qt._from.isSome == qt._to.isSome

/-- Every quantified type in the formula has its bounds both present or both absent. -/
def Formula.paired : Formula → Bool
  | Formula.FormulaBop _ f1 f2 => f1.paired && f2.paired
  | Formula.FormulaNot f => f.paired
  | Formula.QuantifiedFormula qvlist f => qvlist._qtype.paired && f.paired
  | Formula.Havoc _ => true
  | Formula.BooleanTerm _ => true
  | Formula.Relation _ _ _ _ => true

/-- The variables that the `VariableReference` nodes of a term point to, left to right. -/
def Term.refs : Term → List Variable
  | Term.IntConstant _ => []
  | Term.UserConstant _ _ => []
  | Term.VariableReference var _ => [var]
  | Term.ArithmeticOperation _ _ t1 t2 => t1.refs ++ t2.refs

/-- The variables that the `VariableReference` nodes in the terms of a formula point to,
left to right; of a quantified formula, those in its body. -/
def Formula.refs : Formula → List Variable
  | Formula.FormulaBop _ f1 f2 => f1.refs ++ f2.refs
  | Formula.FormulaNot f => f.refs
  | Formula.QuantifiedFormula _ f => f.refs
  | Formula.Havoc _ => []
  | Formula.BooleanTerm t => t.refs
  | Formula.Relation _ _ t1 t2 => t1.refs ++ t2.refs

/-- The variable `x` of the printing examples. -/
def sampleX : Variable :=
  { addr := 3, name := "x", type := { scalar := ScalarType.Integral, array := false } }

/-- The variable `y` of the printing examples. -/
def sampleY : Variable :=
  { addr := 4, name := "y", type := { scalar := ScalarType.Integral, array := false } }

/-- The term `( x' + 2 )`. -/
def sampleSum : Term :=
  Term.ArithmeticOperation ArithOp.Add { scalar := ScalarType.Integral, array := false }
    (Term.VariableReference sampleX true) (Term.IntConstant 2)

/-- The formula `( not ( x = 0 ) && havoc ( x, y ) )`. -/
def sampleGuard : Formula :=
  Formula.FormulaBop BoolOp.And
    (Formula.FormulaNot (Formula.Relation RelationOp.eq
      { scalar := ScalarType.Integral, array := false }
      (Term.VariableReference sampleX false) (Term.IntConstant 0)))
    (Formula.Havoc [sampleX, sampleY])

/-- The binder `forall x, y : Integral[0, 10]`. -/
def sampleBinder : QuantifiedVariableList :=
  { _q := Quantifier.Forall
    _qtype := { _t := { scalar := ScalarType.Integral, array := false }
                _from := some (Term.IntConstant 0), _to := some (Term.IntConstant 10) }
    _vars := [sampleX, sampleY] }

/-- The body `( x <= y' )`. -/
def sampleBody : Formula :=
  Formula.Relation RelationOp.leq { scalar := ScalarType.Integral, array := false }
    (Term.VariableReference sampleX false) (Term.VariableReference sampleY true)

/-- The formula `forall x : Integral[0, 10] . ( x >= 0 )`. -/
def sampleForall : Formula :=
  Formula.QuantifiedFormula
    { _q := Quantifier.Forall
      _qtype := { _t := { scalar := ScalarType.Integral, array := false }
                  _from := some (Term.IntConstant 0), _to := some (Term.IntConstant 10) }
      _vars := [sampleX] }
    (Formula.Relation RelationOp.geq { scalar := ScalarType.Integral, array := false }
      (Term.VariableReference sampleX false) (Term.IntConstant 0))

/-- A run that leaves uses `2` and `5` resolved to variable `3`, use `4` resolved to
variable `8` and use `6` unresolved. -/
def sampleOps : List Op :=
  [Op.construct 1 UserType.Havoc 7, Op.set 1 (some 3), Op.copy_construct 2 1,
   Op.move_construct 5 1, Op.destroy 1, Op.construct 4 UserType.ArrayWrite 9,
   Op.assign_var 4 (some 8), Op.construct 6 UserType.VariableReference 11]

/-- The state `sampleOps` ends in. -/
def sampleHeap : Heap := (run Heap.empty sampleOps).getD Heap.empty

/-! ## Lists of nodes -/

theorem eraseP_fst_eq_filter (l : List (NodeId × Addr)) (n : NodeId)
    (hnd : (l.map Prod.fst).Nodup) :
    l.eraseP (fun e => e.1 == n) = l.filter (fun e => e.1 != n) := by
  induction l with
  | nil => rfl
  | cons e l ih =>
    simp only [List.map_cons, List.nodup_cons] at hnd
    by_cases he : e.1 = n
    · have h1 : (e.1 == n) = true := by simp [he]
      have h2 : (e.1 != n) = false := by simp [he]
      rw [List.eraseP_cons, List.filter_cons]
      simp only [h1, h2, cond_true, Bool.false_eq_true, if_false]
      symm
      rw [List.filter_eq_self]
      intro x hx
      have : x.1 ≠ n := by
        intro hxn
        apply hnd.1
        rw [he, ← hxn]
        exact List.mem_map_of_mem Prod.fst hx
      simp [this]
    · have h1 : ¬ ((e.1 == n) = true) := by simp [he]
      have h2 : (e.1 != n) = true := by simp [he]
      have h3 : (e.1 == n) = false := by simp [he]
      rw [List.eraseP_cons, List.filter_cons]
      simp only [h3, h2, cond_false, if_true, ih hnd.2]

theorem fst_inj_of_nodup {l : List (NodeId × Addr)} (hnd : (l.map Prod.fst).Nodup)
    {n : NodeId} {a b : Addr} (ha : (n, a) ∈ l) (hb : (n, b) ∈ l) : a = b := by
  induction l with
  | nil => simp at ha
  | cons e l ih =>
    simp only [List.map_cons, List.nodup_cons] at hnd
    rcases List.mem_cons.1 ha with ha | ha <;> rcases List.mem_cons.1 hb with hb | hb
    · rw [← ha] at hb; exact (Prod.mk.inj hb).2.symm
    · exfalso; apply hnd.1; rw [← ha]; exact List.mem_map.2 ⟨(n, b), hb, rfl⟩
    · exfalso; apply hnd.1; rw [← hb]; exact List.mem_map.2 ⟨(n, a), ha, rfl⟩
    · exact ih hnd.2 ha hb

theorem map_snd_filter (l : List (NodeId × Addr)) (a : Addr) :
    (l.filter (fun e => e.2 != a)).map Prod.snd = (l.map Prod.snd).filter (fun b => b != a) := by
  induction l with
  | nil => rfl
  | cons e l ih =>
    by_cases he : e.2 = a
    · simp [List.filter_cons, he, ih]
    · simp [List.filter_cons, he, ih]

/-! ## The two primitives under the invariant -/

theorem WF.empty : WF Heap.empty where
  ids_lt := by intro v n a hm; simp [Heap.empty] at hm
  ids_nodup := by intro v; simp [Heap.empty]
  entry_live := by intro v n a hm; simp [Heap.empty] at hm
  resolved_entry := by intro a u v hu; simp [Heap.empty] at hu

theorem WF.snd_iff {h : Heap} (hw : WF h) {a : Addr} {u : VariableUse} {v : VarId} {n : NodeId}
    (hu : h.uses a = some u) (hp : u._pos = some n) (hm : (n, a) ∈ h._uses v)
    (e : NodeId × Addr) (he : e ∈ h._uses v) : e.1 = n ↔ e.2 = a := by
  obtain ⟨m, b⟩ := e
  constructor
  · intro h1
    simp only at h1
    subst h1
    exact fst_inj_of_nodup (hw.ids_nodup v) he hm
  · intro h1
    simp only at h1
    subst h1
    obtain ⟨u', hu', _, hp'⟩ := hw.entry_live v m b he
    rw [hu] at hu'
    cases hu'
    rw [hp] at hp'
    exact (Option.some.inj hp').symm

theorem release_spec {h : Heap} (hw : WF h) {a : Addr} {u : VariableUse}
    (hu : h.uses a = some u) :
    ∃ h', release h a = some (h', u._var) ∧ WF h' ∧ h'.next = h.next ∧
      h'.uses a = some { u with _var := none } ∧ (∀ b, b ≠ a → h'.uses b = h.uses b) ∧
      (∀ w, h'._uses w =
        if u._var = some w then (h._uses w).filter (fun e => e.2 != a) else h._uses w) := by
  rcases hv : u._var with _ | v
  · refine ⟨h, ?_, hw, rfl, ?_, fun _ _ => rfl, ?_⟩
    · simp [release, hu, hv]
    · rw [hu]; cases u; simp at hv; simp [hv]
    · intro w; simp
  · obtain ⟨n, hp, hm⟩ := hw.resolved_entry a u v hu hv
    have hany : (h._uses v).any (fun e => e.1 == n) = true := by
      rw [List.any_eq_true]; exact ⟨(n, a), hm, by simp⟩
    have hfil : (h._uses v).eraseP (fun e => e.1 == n)
        = (h._uses v).filter (fun e => e.2 != a) := by
      rw [eraseP_fst_eq_filter _ _ (hw.ids_nodup v)]
      apply List.filter_congr
      intro e he
      have := hw.snd_iff hu hp hm e he
      by_cases h1 : e.1 = n
      · have h2 := this.1 h1; simp [h1, h2]
      · have h2 : e.2 ≠ a := fun h2 => h1 (this.2 h2)
        have e1 : (e.1 != n) = true := by simp [h1]
        have e2 : (e.2 != a) = true := by simp [h2]
        rw [e1, e2]
    have hlist : ∀ w, Function.update h._uses v ((h._uses v).filter (fun e => e.2 != a)) w =
        if some v = some w then (h._uses w).filter (fun e => e.2 != a) else h._uses w := by
      intro w
      by_cases hwv : w = v
      · subst hwv; simp
      · have : v ≠ w := fun h1 => hwv h1.symm
        simp [Function.update_noteq hwv, this]
    refine ⟨{ h with
              _uses := Function.update h._uses v ((h._uses v).filter (fun e => e.2 != a))
              uses := Function.update h.uses a (some { u with _var := none }) }, ?_, ?_, rfl, ?_, ?_,
            hlist⟩
    · simp [release, hu, hv, eraseNode, hp, hany, hfil]
    · constructor
      · intro w m b hmem
        simp only [hlist] at hmem
        split at hmem
        · exact hw.ids_lt w m b (List.mem_filter.1 hmem).1
        · exact hw.ids_lt w m b hmem
      · intro w
        simp only [hlist]
        split
        · exact List.Nodup.sublist (List.Sublist.map _ (List.filter_sublist _)) (hw.ids_nodup w)
        · exact hw.ids_nodup w
      · intro w m b hmem
        simp only [hlist] at hmem
        have hmem' : (m, b) ∈ h._uses w := by
          split at hmem
          · exact (List.mem_filter.1 hmem).1
          · exact hmem
        obtain ⟨u', hu', hv', hp'⟩ := hw.entry_live w m b hmem'
        have hba : b ≠ a := by
          intro hba
          subst hba
          rw [hu] at hu'
          cases hu'
          rw [hv] at hv'
          rw [if_pos hv'] at hmem
          simpa using (List.mem_filter.1 hmem).2
        exact ⟨u', by simp [Function.update_noteq hba, hu'], hv', hp'⟩
      · intro b u' w hu' hv'
        by_cases hba : b = a
        · subst hba
          simp at hu'
          subst hu'
          simp at hv'
        · simp only [Function.update_noteq hba] at hu'
          obtain ⟨m, hp', hmem⟩ := hw.resolved_entry b u' w hu' hv'
          refine ⟨m, hp', ?_⟩
          simp only [hlist]
          split
          · exact List.mem_filter.2 ⟨hmem, by simp [hba]⟩
          · exact hmem
    · simp
    · intro b hba; simp [Function.update_noteq hba]

theorem set_spec {h : Heap} (hw : WF h) {a : Addr} {u : VariableUse}
    (hu : h.uses a = some u) (v : Option VarId) :
    ∃ h' n, set h a v = some h' ∧ WF h' ∧
      h'.uses a = some { u with _var := v, _pos := if v = none then u._pos else some n } ∧
      (∀ b, b ≠ a → h'.uses b = h.uses b) ∧
      (∀ w, h'._uses w =
        (if u._var = some w then (h._uses w).filter (fun e => e.2 != a) else h._uses w)
          ++ (if v = some w then [(n, a)] else [])) := by
  obtain ⟨h1, hr, hw1, hn1, hu1, ho1, hl1⟩ := release_spec hw hu
  rcases v with _ | w
  · refine ⟨h1, 0, ?_, hw1, ?_, ho1, ?_⟩
    · simp [set, hr]
    · simp [hu1]
    · intro w; simp [hl1]
  · have hlist : ∀ x, Function.update h1._uses w (h1._uses w ++ [(h1.next, a)]) x =
        h1._uses x ++ (if some w = some x then [(h1.next, a)] else []) := by
      intro x
      by_cases hxw : x = w
      · subst hxw; simp
      · have : w ≠ x := fun h2 => hxw h2.symm
        simp [Function.update_noteq hxw, this]
    have hunres : ∀ x m b, (m, b) ∈ h1._uses x → b ≠ a := by
      intro x m b hmem hba
      subst hba
      obtain ⟨u', hu', hv', _⟩ := hw1.entry_live x m b hmem
      rw [hu1] at hu'
      cases hu'
      simp at hv'
    refine ⟨{ uses := Function.update h1.uses a
                (some { _var := some w, _pos := some h1.next, user_type := u.user_type,
                        user_ptr := u.user_ptr })
              _uses := Function.update h1._uses w (h1._uses w ++ [(h1.next, a)])
              next := h1.next + 1 }, h1.next, ?_, ?_, ?_, ?_, ?_⟩
    · simp [set, hr, hu1]
    · constructor
      · intro x m b hmem
        simp only [hlist] at hmem
        rcases List.mem_append.1 hmem with hmem | hmem
        · exact Nat.lt_succ_of_lt (hw1.ids_lt x m b hmem)
        · split at hmem
          · simp at hmem; simp [hmem.1]
          · simp at hmem
      · intro x
        simp only [hlist]
        split
        · rw [List.map_append, List.nodup_append]
          refine ⟨hw1.ids_nodup x, by simp, ?_⟩
          intro m hm1 hm2
          simp at hm2
          subst hm2
          obtain ⟨e, he, he1⟩ := List.mem_map.1 hm1
          have hlt := hw1.ids_lt x e.1 e.2 he
          rw [he1] at hlt
          exact Nat.lt_irrefl _ hlt
        · simpa using hw1.ids_nodup x
      · intro x m b hmem
        simp only [hlist] at hmem
        rcases List.mem_append.1 hmem with hmem | hmem
        · obtain ⟨u', hu', hv', hp'⟩ := hw1.entry_live x m b hmem
          have hba := hunres x m b hmem
          exact ⟨u', by simp [Function.update_noteq hba, hu'], hv', hp'⟩
        · split at hmem
          · rename_i hwx
            simp at hmem hwx
            obtain ⟨rfl, rfl⟩ := hmem
            subst hwx
            exact ⟨{ _var := some w, _pos := some h1.next, user_type := u.user_type,
                     user_ptr := u.user_ptr }, by simp, rfl, rfl⟩
          · simp at hmem
      · intro b u' x hu' hv'
        by_cases hba : b = a
        · subst hba
          simp at hu'
          subst hu'
          simp at hv'
          subst hv'
          refine ⟨h1.next, rfl, ?_⟩
          simp [hlist]
        · simp only [Function.update_noteq hba] at hu'
          obtain ⟨m, hp', hmem⟩ := hw1.resolved_entry b u' x hu' hv'
          refine ⟨m, hp', ?_⟩
          simp only [hlist]
          exact List.mem_append.2 (Or.inl hmem)
    · simp
    · intro b hba
      simp [Function.update_noteq hba, ho1 b hba]
    · intro x
      show Function.update h1._uses w (h1._uses w ++ [(h1.next, a)]) x = _
      rw [hlist x, hl1 x]

theorem WF.place {h : Heap} (hw : WF h) {a : Addr} (hfree : h.uses a = none)
    (u0 : VariableUse) (h0 : u0._var = none) :
    WF { h with uses := Function.update h.uses a (some u0) } := by
  have hne : ∀ x m b, (m, b) ∈ h._uses x → b ≠ a := by
    intro x m b hmem hba
    subst hba
    obtain ⟨u', hu', _, _⟩ := hw.entry_live x m b hmem
    rw [hfree] at hu'
    cases hu'
  constructor
  · exact hw.ids_lt
  · exact hw.ids_nodup
  · intro x m b hmem
    obtain ⟨u', hu', hv', hp'⟩ := hw.entry_live x m b hmem
    exact ⟨u', by simp [Function.update_noteq (hne x m b hmem), hu'], hv', hp'⟩
  · intro b u' x hu' hv'
    by_cases hba : b = a
    · subst hba
      simp at hu'
      subst hu'
      rw [h0] at hv'
      cases hv'
    · simp only [Function.update_noteq hba] at hu'
      exact hw.resolved_entry b u' x hu' hv'

theorem WF.remove {h : Heap} (hw : WF h) {a : Addr} {u : VariableUse}
    (hu : h.uses a = some u) (h0 : u._var = none) :
    WF { h with uses := Function.update h.uses a none } := by
  have hne : ∀ x m b, (m, b) ∈ h._uses x → b ≠ a := by
    intro x m b hmem hba
    subst hba
    obtain ⟨u', hu', hv', _⟩ := hw.entry_live x m b hmem
    rw [hu] at hu'
    cases hu'
    rw [h0] at hv'
    cases hv'
  constructor
  · exact hw.ids_lt
  · exact hw.ids_nodup
  · intro x m b hmem
    obtain ⟨u', hu', hv', hp'⟩ := hw.entry_live x m b hmem
    exact ⟨u', by simp [Function.update_noteq (hne x m b hmem), hu'], hv', hp'⟩
  · intro b u' x hu' hv'
    by_cases hba : b = a
    · subst hba
      simp at hu'
    · simp only [Function.update_noteq hba] at hu'
      exact hw.resolved_entry b u' x hu' hv'

/-! ## Constructors, destructor and assignments under the invariant -/

theorem construct_spec {h : Heap} (hw : WF h) {a : Addr} (hfree : h.uses a = none)
    (k : UserType) (p : UserPtr) :
    ∃ h', construct h a k p = some h' ∧ WF h' ∧
      h'.uses a = some { _var := none, _pos := none, user_type := k, user_ptr := some p } ∧
      (∀ b, b ≠ a → h'.uses b = h.uses b) ∧ h'._uses = h._uses := by
  refine ⟨_, by simp [construct, hfree]; rfl, hw.place hfree _ rfl, by simp, ?_, rfl⟩
  intro b hba
  simp [Function.update_noteq hba]

theorem copy_construct_spec {h : Heap} (hw : WF h) {a s : Addr} {o : VariableUse}
    (hfree : h.uses a = none) (hs : h.uses s = some o) :
    ∃ h' n, copy_construct h a s = some h' ∧ WF h' ∧
      h'.uses a = some { _var := o._var, _pos := if o._var = none then none else some n,
                         user_type := o.user_type, user_ptr := none } ∧
      (∀ b, b ≠ a → h'.uses b = h.uses b) ∧
      (∀ w, h'._uses w = h._uses w ++ (if o._var = some w then [(n, a)] else [])) := by
  have hsa : s ≠ a := by intro e; rw [e, hfree] at hs; cases hs
  have hw1 := hw.place hfree
    { _var := none, _pos := none, user_type := o.user_type, user_ptr := none } rfl
  obtain ⟨h', n, hset, hw', hu', ho', hl'⟩ :=
    set_spec hw1 (a := a)
      (u := { _var := none, _pos := none, user_type := o.user_type, user_ptr := none })
      (by simp) o._var
  refine ⟨h', n, ?_, hw', ?_, ?_, ?_⟩
  · simp [copy_construct, hfree, hs, get, Function.update_noteq hsa, hset]
  · rw [hu']
  · intro b hba
    rw [ho' b hba]
    simp [Function.update_noteq hba]
  · intro w
    rw [hl' w]
    simp

theorem move_construct_spec {h : Heap} (hw : WF h) {a s : Addr} {o : VariableUse}
    (hfree : h.uses a = none) (hs : h.uses s = some o) :
    ∃ h' n, move_construct h a s = some h' ∧ WF h' ∧
      h'.uses a = some { _var := o._var, _pos := if o._var = none then none else some n,
                         user_type := o.user_type, user_ptr := none } ∧
      h'.uses s = some { o with _var := none } ∧
      (∀ b, b ≠ a → b ≠ s → h'.uses b = h.uses b) ∧
      (∀ w, h'._uses w =
        (if o._var = some w then (h._uses w).filter (fun e => e.2 != s) else h._uses w)
          ++ (if o._var = some w then [(n, a)] else [])) := by
  have hsa : s ≠ a := by intro e; rw [e, hfree] at hs; cases hs
  have hw1 := hw.place hfree
    { _var := none, _pos := none, user_type := o.user_type, user_ptr := none } rfl
  obtain ⟨h2, hrel, hw2, _, hu2, ho2, hl2⟩ :=
    release_spec hw1 (a := s) (u := o) (by simp [Function.update_noteq hsa, hs])
  have ha2 : h2.uses a
      = some { _var := none, _pos := none, user_type := o.user_type, user_ptr := none } := by
    rw [ho2 a (Ne.symm hsa)]; simp
  obtain ⟨h', n, hset, hw', hu', ho', hl'⟩ := set_spec hw2 ha2 o._var
  refine ⟨h', n, ?_, hw', ?_, ?_, ?_, ?_⟩
  · simp [move_construct, hfree, hs, hrel, hset]
  · rw [hu']
  · rw [ho' s hsa, hu2]
  · intro b hba hbs
    rw [ho' b hba, ho2 b hbs]
    simp [Function.update_noteq hba]
  · intro w
    rw [hl' w, hl2 w]
    simp

theorem destroy_spec {h : Heap} (hw : WF h) {a : Addr} {u : VariableUse}
    (hu : h.uses a = some u) :
    ∃ h', destroy h a = some h' ∧ WF h' ∧ h'.uses a = none ∧
      (∀ b, b ≠ a → h'.uses b = h.uses b) ∧
      (∀ w, h'._uses w =
        if u._var = some w then (h._uses w).filter (fun e => e.2 != a) else h._uses w) := by
  obtain ⟨h1, hrel, hw1, _, hu1, ho1, hl1⟩ := release_spec hw hu
  refine ⟨_, by simp [destroy, hrel], hw1.remove hu1 rfl, by simp, ?_, hl1⟩
  intro b hba
  simp [Function.update_noteq hba, ho1 b hba]

theorem copy_assign_wf {h : Heap} (hw : WF h) {a s : Addr}
    (ha : (h.uses a).isSome) (hs : (h.uses s).isSome) :
    ∃ h', copy_assign h a s = some h' ∧ WF h' := by
  obtain ⟨u, hu⟩ := Option.isSome_iff_exists.1 ha
  obtain ⟨o, ho⟩ := Option.isSome_iff_exists.1 hs
  obtain ⟨h', n, hset, hw', _⟩ := set_spec hw hu o._var
  exact ⟨h', by simp [copy_assign, get, ho, hset], hw'⟩

theorem move_assign_wf {h : Heap} (hw : WF h) {a s : Addr}
    (ha : (h.uses a).isSome) (hs : (h.uses s).isSome) :
    ∃ h', move_assign h a s = some h' ∧ WF h' := by
  obtain ⟨o, ho⟩ := Option.isSome_iff_exists.1 hs
  obtain ⟨h1, hrel, hw1, _, hu1, ho1, _⟩ := release_spec hw ho
  have ha1 : ∃ u1, h1.uses a = some u1 := by
    by_cases e : a = s
    · subst e; exact ⟨_, hu1⟩
    · rw [ho1 a e]; exact Option.isSome_iff_exists.1 ha
  obtain ⟨u1, hu1'⟩ := ha1
  obtain ⟨h', n, hset, hw', _⟩ := set_spec hw1 hu1' o._var
  exact ⟨h', by simp [move_assign, hrel, hset], hw'⟩

theorem step_progress {h : Heap} (hw : WF h) (op : Op) (hv : op.valid h) :
    ∃ h', step h op = some h' ∧ WF h' := by
  cases op with
  | construct a k p =>
    obtain ⟨h', e, hw', _⟩ := construct_spec hw hv k p
    exact ⟨h', e, hw'⟩
  | set a v =>
    obtain ⟨u, hu⟩ := Option.isSome_iff_exists.1 hv
    obtain ⟨h', n, e, hw', _⟩ := set_spec hw hu v
    exact ⟨h', e, hw'⟩
  | release a =>
    obtain ⟨u, hu⟩ := Option.isSome_iff_exists.1 hv
    obtain ⟨h', e, hw', _⟩ := release_spec hw hu
    exact ⟨h', by simp [step, e], hw'⟩
  | copy_construct a s =>
    obtain ⟨o, ho⟩ := Option.isSome_iff_exists.1 hv.2
    obtain ⟨h', n, e, hw', _⟩ := copy_construct_spec hw hv.1 ho
    exact ⟨h', e, hw'⟩
  | move_construct a s =>
    obtain ⟨o, ho⟩ := Option.isSome_iff_exists.1 hv.2
    obtain ⟨h', n, e, hw', _⟩ := move_construct_spec hw hv.1 ho
    exact ⟨h', e, hw'⟩
  | copy_assign a s => exact copy_assign_wf hw hv.1 hv.2
  | move_assign a s => exact move_assign_wf hw hv.1 hv.2
  | assign_var a v =>
    obtain ⟨u, hu⟩ := Option.isSome_iff_exists.1 hv
    obtain ⟨h', n, e, hw', _⟩ := set_spec hw hu v
    exact ⟨h', e, hw'⟩
  | destroy a =>
    obtain ⟨u, hu⟩ := Option.isSome_iff_exists.1 hv
    obtain ⟨h', e, hw', _⟩ := destroy_spec hw hu
    exact ⟨h', e, hw'⟩

theorem release_some_live {h h1 : Heap} {a : Addr} {v : Option VarId}
    (hr : release h a = some (h1, v)) :
    (h.uses a).isSome ∧ ∀ b, (h1.uses b).isSome = (h.uses b).isSome := by
  unfold release at hr
  rcases hu : h.uses a with _ | u
  · simp [hu] at hr
  · refine ⟨rfl, ?_⟩
    simp only [hu] at hr
    rcases hv : u._var with _ | w
    · simp only [hv] at hr
      cases hr
      intro b; rfl
    · simp only [hv] at hr
      rcases he : eraseNode (h._uses w) u._pos with _ | l
      · simp [he] at hr
      · simp only [he, Option.some.injEq, Prod.mk.injEq] at hr
        obtain ⟨rfl, _⟩ := hr
        intro b
        by_cases hba : b = a
        · subst hba; simp [hu]
        · simp [Function.update_noteq hba]

theorem set_some_live {h h' : Heap} {a : Addr} {v : Option VarId}
    (hs : set h a v = some h') : (h.uses a).isSome := by
  unfold set at hs
  rcases hr : release h a with _ | ⟨h1, x⟩
  · simp [hr] at hs
  · exact (release_some_live hr).1

theorem step_valid_of_some {h h' : Heap} {op : Op} (hs : step h op = some h') :
    op.valid h := by
  cases op with
  | construct a k p =>
    simp only [step, construct] at hs
    rcases hu : h.uses a with _ | u
    · exact hu
    · simp [hu] at hs
  | set a v => exact set_some_live hs
  | release a =>
    simp only [step] at hs
    rcases hr : release h a with _ | ⟨h1, x⟩
    · simp [hr] at hs
    · exact (release_some_live hr).1
  | copy_construct a s =>
    simp only [step, copy_construct] at hs
    rcases hu : h.uses a with _ | u <;> rcases ho : h.uses s with _ | o <;> simp [hu, ho] at hs
    exact ⟨hu, by rw [ho]; rfl⟩
  | move_construct a s =>
    simp only [step, move_construct] at hs
    rcases hu : h.uses a with _ | u <;> rcases ho : h.uses s with _ | o <;> simp [hu, ho] at hs
    exact ⟨hu, by rw [ho]; rfl⟩
  | copy_assign a s =>
    simp only [step, copy_assign, get] at hs
    rcases ho : h.uses s with _ | o
    · simp [ho] at hs
    · simp only [ho, Option.map_some'] at hs
      exact ⟨set_some_live hs, by rw [ho]; rfl⟩
  | move_assign a s =>
    simp only [step, move_assign] at hs
    rcases hr : release h s with _ | ⟨h1, x⟩
    · simp [hr] at hs
    · simp only [hr] at hs
      have h1l := release_some_live hr
      exact ⟨by rw [← h1l.2 a]; exact set_some_live hs, h1l.1⟩
  | assign_var a v => exact set_some_live hs
  | destroy a =>
    simp only [step, destroy] at hs
    rcases hr : release h a with _ | ⟨h1, x⟩
    · simp [hr] at hs
    · exact (release_some_live hr).1

theorem step_wf {h h' : Heap} {op : Op} (hw : WF h) (hs : step h op = some h') : WF h' := by
  obtain ⟨h'', e, hw'⟩ := step_progress hw op (step_valid_of_some hs)
  rw [hs] at e
  cases e
  exact hw'

theorem run_wf {h : Heap} (hw : WF h) (ops : List Op) {h' : Heap}
    (hr : run h ops = some h') : WF h' := by
  induction ops generalizing h with
  | nil => simp only [run, Option.some.injEq] at hr; subst hr; exact hw
  | cons op ops ih =>
    simp only [run] at hr
    rcases hs : step h op with _ | h1
    · simp [hs] at hr
    · simp only [hs] at hr
      exact ih (step_wf hw hs) hr

theorem WF.mem_useList_iff {h : Heap} (hw : WF h) {a : Addr} {u : VariableUse}
    (hu : h.uses a = some u) (v : VarId) : a ∈ h.useList v ↔ u._var = some v := by
  constructor
  · intro hm
    obtain ⟨e, he, hea⟩ := List.mem_map.1 hm
    obtain ⟨n, b⟩ := e
    simp only at hea
    subst hea
    obtain ⟨u', hu', hv', _⟩ := hw.entry_live v n b he
    rw [hu] at hu'
    cases hu'
    exact hv'
  · intro hv
    obtain ⟨n, _, hm⟩ := hw.resolved_entry a u v hu hv
    exact List.mem_map.2 ⟨(n, a), hm, rfl⟩

theorem WF.mem_useList_live {h : Heap} (hw : WF h) {a : Addr} {v : VarId}
    (hm : a ∈ h.useList v) : ∃ u, h.uses a = some u ∧ u._var = some v := by
  obtain ⟨e, he, hea⟩ := List.mem_map.1 hm
  obtain ⟨n, b⟩ := e
  simp only at hea
  subst hea
  obtain ⟨u', hu', hv', _⟩ := hw.entry_live v n b he
  exact ⟨u', hu', hv'⟩

theorem WF.useList_nodup {h : Heap} (hw : WF h) (v : VarId) : (h.useList v).Nodup := by
  have hnd : (h._uses v).Nodup := List.Nodup.of_map _ (hw.ids_nodup v)
  refine List.Nodup.map_on ?_ hnd
  intro x hx y hy hxy
  obtain ⟨n, a⟩ := x
  obtain ⟨m, b⟩ := y
  simp only at hxy
  subst hxy
  obtain ⟨u1, hu1, _, hp1⟩ := hw.entry_live v n a hx
  obtain ⟨u2, hu2, _, hp2⟩ := hw.entry_live v m a hy
  rw [hu1] at hu2
  cases hu2
  rw [hp1] at hp2
  cases hp2
  rfl

theorem WF.useList_filter {h : Heap} (hw : WF h) (w : VarId) (a : Addr) :
    ((h._uses w).filter (fun e => e.2 != a)).map Prod.snd = (h.useList w).erase a := by
  rw [map_snd_filter, (hw.useList_nodup w).erase_eq_filter]
  rfl

theorem WF.not_mem_useList_of_free {h : Heap} (hw : WF h) {a : Addr} (hfree : h.uses a = none)
    (w : VarId) : a ∉ h.useList w := by
  intro hm
  obtain ⟨u, hu, _⟩ := hw.mem_useList_live hm
  rw [hfree] at hu
  cases hu

theorem WF.not_mem_useList_of_unresolved {h : Heap} (hw : WF h) {a : Addr} {u : VariableUse}
    (hu : h.uses a = some u) (hv : u._var = none) (w : VarId) : a ∉ h.useList w := by
  intro hm
  obtain ⟨u', hu', hv'⟩ := hw.mem_useList_live hm
  rw [hu] at hu'
  cases hu'
  rw [hv] at hv'
  cases hv'

theorem release_useList {h : Heap} (hw : WF h) {a : Addr} {u : VariableUse}
    (hu : h.uses a = some u) :
    ∃ h1, release h a = some (h1, u._var) ∧ WF h1 ∧
      h1.uses a = some { u with _var := none } ∧ (∀ b, b ≠ a → h1.uses b = h.uses b) ∧
      (∀ w, h1.useList w = if u._var = some w then (h.useList w).erase a else h.useList w) := by
  obtain ⟨h1, hr, hw1, _, hu1, ho1, hl1⟩ := release_spec hw hu
  refine ⟨h1, hr, hw1, hu1, ho1, ?_⟩
  intro w
  by_cases c : u._var = some w
  · simp only [Heap.useList, hl1 w, if_pos c]
    exact hw.useList_filter w a
  · simp only [Heap.useList, hl1 w, if_neg c]

theorem set_useList {h : Heap} (hw : WF h) {a : Addr} {u : VariableUse}
    (hu : h.uses a = some u) (v : Option VarId) :
    ∃ h', set h a v = some h' ∧ WF h' ∧
      (∃ p, h'.uses a = some { u with _var := v, _pos := p }) ∧
      (∀ b, b ≠ a → h'.uses b = h.uses b) ∧
      (∀ w, h'.useList w =
        (if u._var = some w then (h.useList w).erase a else h.useList w)
          ++ (if v = some w then [a] else [])) := by
  obtain ⟨h', n, hs, hw', hu', ho', hl'⟩ := set_spec hw hu v
  refine ⟨h', hs, hw', ⟨_, hu'⟩, ho', ?_⟩
  intro w
  simp only [Heap.useList, hl' w, List.map_append]
  congr 1
  · by_cases c : u._var = some w
    · simp only [if_pos c]; exact hw.useList_filter w a
    · simp only [if_neg c]
  · split <;> rfl

theorem copy_construct_useList {h : Heap} (hw : WF h) {a s : Addr} {o : VariableUse}
    (hfree : h.uses a = none) (hs : h.uses s = some o) :
    ∃ h', copy_construct h a s = some h' ∧ WF h' ∧
      (∃ p, h'.uses a = some { _var := o._var, _pos := p, user_type := o.user_type,
                               user_ptr := none }) ∧
      (∀ b, b ≠ a → h'.uses b = h.uses b) ∧
      (∀ w, h'.useList w = h.useList w ++ (if o._var = some w then [a] else [])) := by
  obtain ⟨h', n, hc, hw', hu', ho', hl'⟩ := copy_construct_spec hw hfree hs
  refine ⟨h', hc, hw', ⟨_, hu'⟩, ho', ?_⟩
  intro w
  simp only [Heap.useList, hl' w, List.map_append]
  congr 1
  split <;> rfl

theorem move_construct_useList {h : Heap} (hw : WF h) {a s : Addr} {o : VariableUse}
    (hfree : h.uses a = none) (hs : h.uses s = some o) :
    ∃ h', move_construct h a s = some h' ∧ WF h' ∧
      (∃ p, h'.uses a = some { _var := o._var, _pos := p, user_type := o.user_type,
                               user_ptr := none }) ∧
      h'.uses s = some { o with _var := none } ∧
      (∀ b, b ≠ a → b ≠ s → h'.uses b = h.uses b) ∧
      (∀ w, h'.useList w =
        (if o._var = some w then (h.useList w).erase s else h.useList w)
          ++ (if o._var = some w then [a] else [])) := by
  obtain ⟨h', n, hc, hw', hu', hs', ho', hl'⟩ := move_construct_spec hw hfree hs
  refine ⟨h', hc, hw', ⟨_, hu'⟩, hs', ho', ?_⟩
  intro w
  simp only [Heap.useList, hl' w, List.map_append]
  congr 1
  · by_cases c : o._var = some w
    · simp only [if_pos c]; exact hw.useList_filter w s
    · simp only [if_neg c]
  · split <;> rfl

theorem destroy_useList {h : Heap} (hw : WF h) {a : Addr} {u : VariableUse}
    (hu : h.uses a = some u) :
    ∃ h', destroy h a = some h' ∧ WF h' ∧ h'.uses a = none ∧
      (∀ b, b ≠ a → h'.uses b = h.uses b) ∧
      (∀ w, h'.useList w = if u._var = some w then (h.useList w).erase a else h.useList w) := by
  obtain ⟨h', hd, hw', hu', ho', hl'⟩ := destroy_spec hw hu
  refine ⟨h', hd, hw', hu', ho', ?_⟩
  intro w
  by_cases c : u._var = some w
  · simp only [Heap.useList, hl' w, if_pos c]
    exact hw.useList_filter w a
  · simp only [Heap.useList, hl' w, if_neg c]

theorem sampleHeap_wf : WF sampleHeap :=
  run_wf WF.empty sampleOps (rfl : run Heap.empty sampleOps = some sampleHeap)

/-! ## Sequences of operations -/

theorem run_append (h : Heap) (l1 l2 : List Op) :
    run h (l1 ++ l2) = (run h l1).bind (fun h1 => run h1 l2) := by
  induction l1 generalizing h with
  | nil => rfl
  | cons op l1 ih =>
    simp only [List.cons_append, run]
    rcases step h op with _ | h1
    · rfl
    · exact ih h1

theorem run_cons_of_step {h h1 : Heap} {op : Op} (hs : step h op = some h1) (ops : List Op) :
    run h (op :: ops) = run h1 ops := by
  simp only [run, hs]

theorem reloc_step {h : Heap} (hw : WF h) (bm : Bool) {n o : Addr}
    (hfree : h.uses n = none) (hlive : (h.uses o).isSome) :
    ∃ h1, step h (if bm then Op.move_construct n o else Op.copy_construct n o) = some h1 ∧
      WF h1 ∧ get h1 n = get h o ∧ utype h1 n = utype h o ∧ uptr h1 n = some none ∧
      (h1.uses o).isSome ∧ (∀ b, b ≠ n → b ≠ o → h1.uses b = h.uses b) := by
  obtain ⟨uo, huo⟩ := Option.isSome_iff_exists.1 hlive
  have hon : o ≠ n := by intro e; rw [e, hfree] at huo; cases huo
  cases bm with
  | true =>
    obtain ⟨h1, hc, hw1, ⟨p, hu1⟩, hs1, ho1, _⟩ := move_construct_useList hw hfree huo
    exact ⟨h1, by simpa [step] using hc, hw1, by simp [get, hu1, huo],
      by simp [utype, hu1, huo], by simp [uptr, hu1], by simp [hs1], ho1⟩
  | false =>
    obtain ⟨h1, hc, hw1, ⟨p, hu1⟩, ho1, _⟩ := copy_construct_useList hw hfree huo
    exact ⟨h1, by simpa [step] using hc, hw1, by simp [get, hu1, huo],
      by simp [utype, hu1, huo], by simp [uptr, hu1], by rw [ho1 o hon, huo]; rfl,
      fun b hb _ => ho1 b hb⟩

theorem run_reloc (bm : Bool) (new : List Addr) :
    ∀ (old : List Addr) (h : Heap), WF h → new.length = old.length → new.Nodup → old.Nodup →
      (∀ a ∈ new, h.uses a = none) → (∀ a ∈ old, (h.uses a).isSome) →
      ∃ h', run h ((new.zip old).map (fun e => if bm then Op.move_construct e.1 e.2
                                              else Op.copy_construct e.1 e.2)) = some h' ∧
        WF h' ∧ (∀ b, b ∉ new → b ∉ old → h'.uses b = h.uses b) ∧
        (∀ a ∈ old, (h'.uses a).isSome) ∧
        new.map (get h') = old.map (get h) ∧ new.map (utype h') = old.map (utype h) ∧
        (∀ a ∈ new, uptr h' a = some none) := by
  induction new with
  | nil =>
    intro old h hw hlen _ _ _ hlive
    have : old = [] := List.length_eq_zero.1 hlen.symm
    subst this
    exact ⟨h, rfl, hw, fun _ _ _ => rfl, hlive, rfl, rfl, by simp⟩
  | cons n new ih =>
    intro old h hw hlen hnd hod hfree hlive
    rcases old with _ | ⟨o, old⟩
    · simp at hlen
    · simp only [List.length_cons, Nat.succ.injEq] at hlen
      simp only [List.nodup_cons] at hnd hod
      have hnf : h.uses n = none := hfree n (List.mem_cons_self _ _)
      have hol : (h.uses o).isSome := hlive o (List.mem_cons_self _ _)
      obtain ⟨h1, hs1, hw1, hg1, ht1, hp1, hl1, ho1⟩ := reloc_step hw bm hnf hol
      have ne_of_free_live : ∀ {a b : Addr}, h.uses a = none → (h.uses b).isSome → a ≠ b := by
        intro a b ha hb e
        rw [e] at ha
        rw [ha] at hb
        cases hb
      have hnew1 : ∀ a ∈ new, h1.uses a = none := by
        intro a ha
        have han : a ≠ n := fun e => hnd.1 (e ▸ ha)
        have hao : a ≠ o := ne_of_free_live (hfree a (List.mem_cons_of_mem _ ha)) hol
        rw [ho1 a han hao]
        exact hfree a (List.mem_cons_of_mem _ ha)
      have hold_same : ∀ a ∈ old, h1.uses a = h.uses a := by
        intro a ha
        have han : a ≠ n :=
          (ne_of_free_live hnf (hlive a (List.mem_cons_of_mem _ ha))).symm
        have hao : a ≠ o := fun e => hod.1 (e ▸ ha)
        exact ho1 a han hao
      have hold1 : ∀ a ∈ old, (h1.uses a).isSome := by
        intro a ha
        rw [hold_same a ha]
        exact hlive a (List.mem_cons_of_mem _ ha)
      obtain ⟨h', hr, hw', ho', hl', hg', ht', hp'⟩ :=
        ih old h1 hw1 hlen hnd.2 hod.2 hnew1 hold1
      have hn_old : n ∉ old := fun hm =>
        ne_of_free_live hnf (hlive n (List.mem_cons_of_mem _ hm)) rfl
      have ho_new : o ∉ new := fun hm =>
        ne_of_free_live (hfree o (List.mem_cons_of_mem _ hm)) hol rfl
      refine ⟨h', ?_, hw', ?_, ?_, ?_, ?_, ?_⟩
      · simp only [List.zip_cons_cons, List.map_cons]
        rw [run_cons_of_step hs1]
        exact hr
      · intro b hbn hbo
        simp only [List.mem_cons, not_or] at hbn hbo
        rw [ho' b hbn.2 hbo.2, ho1 b hbn.1 hbo.1]
      · intro a ha
        rcases List.mem_cons.1 ha with e | ha
        · subst e
          rw [ho' a ho_new hod.1]
          exact hl1
        · exact hl' a ha
      · simp only [List.map_cons]
        congr 1
        · simp only [get, ho' n hnd.1 hn_old]
          exact hg1
        · rw [hg']
          apply List.map_congr_left
          intro a ha
          simp only [get, hold_same a ha]
      · simp only [List.map_cons]
        congr 1
        · simp only [utype, ho' n hnd.1 hn_old]
          exact ht1
        · rw [ht']
          apply List.map_congr_left
          intro a ha
          simp only [utype, hold_same a ha]
      · intro a ha
        rcases List.mem_cons.1 ha with e | ha
        · subst e
          simp only [uptr, ho' a hnd.1 hn_old]
          exact hp1
        · exact hp' a ha

theorem destroy_filter {h : Heap} (hw : WF h) {a : Addr} (hlive : (h.uses a).isSome) :
    ∃ h', step h (Op.destroy a) = some h' ∧ WF h' ∧ h'.uses a = none ∧
      (∀ b, b ≠ a → h'.uses b = h.uses b) ∧
      (∀ w, h'.useList w = (h.useList w).filter (fun b => b != a)) := by
  obtain ⟨u, hu⟩ := Option.isSome_iff_exists.1 hlive
  obtain ⟨h', hd, hw', hu', ho', hl'⟩ := destroy_useList hw hu
  refine ⟨h', hd, hw', hu', ho', ?_⟩
  intro w
  rw [hl' w]
  by_cases c : u._var = some w
  · rw [if_pos c, (hw.useList_nodup w).erase_eq_filter]
  · rw [if_neg c]
    symm
    rw [List.filter_eq_self]
    intro b hb
    have : b ≠ a := by
      intro e
      subst e
      exact c ((hw.mem_useList_iff hu w).1 hb)
    simp [this]

theorem run_destroy_all (ds : List Addr) :
    ∀ (h : Heap), WF h → ds.Nodup → (∀ a ∈ ds, (h.uses a).isSome) →
      ∃ h', run h (ds.map Op.destroy) = some h' ∧ WF h' ∧ (∀ a ∈ ds, h'.uses a = none) ∧
        (∀ b, b ∉ ds → h'.uses b = h.uses b) ∧
        (∀ w, h'.useList w = (h.useList w).filter (fun b => decide (b ∉ ds))) := by
  induction ds with
  | nil =>
    intro h hw _ _
    exact ⟨h, rfl, hw, by simp, fun _ _ => rfl, by simp⟩
  | cons a ds ih =>
    intro h hw hnd hlive
    simp only [List.nodup_cons] at hnd
    obtain ⟨h1, hs1, hw1, hu1, ho1, hl1⟩ := destroy_filter hw (hlive a (List.mem_cons_self _ _))
    have hlive1 : ∀ b ∈ ds, (h1.uses b).isSome := by
      intro b hb
      have hba : b ≠ a := fun e => hnd.1 (e ▸ hb)
      rw [ho1 b hba]
      exact hlive b (List.mem_cons_of_mem _ hb)
    obtain ⟨h', hr, hw', hu', ho', hl'⟩ := ih h1 hw1 hnd.2 hlive1
    refine ⟨h', ?_, hw', ?_, ?_, ?_⟩
    · simp only [List.map_cons]
      rw [run_cons_of_step hs1]
      exact hr
    · intro b hb
      rcases List.mem_cons.1 hb with e | hb
      · subst e
        rw [ho' b hnd.1, hu1]
      · exact hu' b hb
    · intro b hb
      simp only [List.mem_cons, not_or] at hb
      rw [ho' b hb.2, ho1 b hb.1]
    · intro w
      rw [hl' w, hl1 w, List.filter_filter]
      apply List.filter_congr
      intro b _
      by_cases e : b = a <;> by_cases m : b ∈ ds <;> simp [e, m]

/-! ## `push_back` -/

theorem isSome_of_get {h : Heap} {a : Addr} {x : Option VarId} (hg : get h a = some x) :
    (h.uses a).isSome := by
  rcases hu : h.uses a with _ | u
  · simp [get, hu] at hg
  · rfl

theorem ne_of_free_of_live {h : Heap} {a b : Addr} (ha : h.uses a = none)
    (hb : (h.uses b).isSome) : a ≠ b := by
  intro e
  rw [e] at ha
  rw [ha] at hb
  cases hb

theorem push_head {h : Heap} (hw : WF h) {tmp slot : Addr} (k : UserType) (p : UserPtr)
    (ht : h.uses tmp = none) (hsl : h.uses slot = none) (hne : tmp ≠ slot) :
    ∃ h2, run h [Op.construct tmp k p, Op.move_construct slot tmp] = some h2 ∧ WF h2 ∧
      get h2 tmp = some none ∧ get h2 slot = some none ∧ utype h2 slot = some k ∧
      uptr h2 slot = some none ∧ (∀ b, b ≠ tmp → b ≠ slot → h2.uses b = h.uses b) := by
  obtain ⟨h1, hc1, hw1, hu1, ho1, _⟩ := construct_spec hw ht k p
  have hs1 : h1.uses slot = none := by rw [ho1 slot (Ne.symm hne), hsl]
  obtain ⟨h2, hc2, hw2, ⟨q, hu2⟩, ht2, ho2, _⟩ := move_construct_useList hw1 hs1 hu1
  refine ⟨h2, by simp [run, step, hc1, hc2], hw2, by simp [get, ht2], by simp [get, hu2],
    by simp [utype, hu2], by simp [uptr, hu2], ?_⟩
  intro b hbt hbs
  rw [ho2 b hbs hbt, ho1 b hbt]

theorem push_tail {h : Heap} (hw : WF h) {tmp slot : Addr} (v : Option VarId)
    (ht : (h.uses tmp).isSome) (hsl : (h.uses slot).isSome) (hne : tmp ≠ slot) :
    ∃ h', run h [Op.destroy tmp, Op.assign_var slot v] = some h' ∧ WF h' ∧
      h'.uses tmp = none ∧ get h' slot = some v ∧ utype h' slot = utype h slot ∧
      uptr h' slot = uptr h slot ∧ (∀ b, b ≠ tmp → b ≠ slot → h'.uses b = h.uses b) := by
  obtain ⟨h1, hs1, hw1, hu1, ho1, _⟩ := destroy_filter hw ht
  obtain ⟨u, hu⟩ := Option.isSome_iff_exists.1 hsl
  have hsl1 : h1.uses slot = some u := by rw [ho1 slot (Ne.symm hne), hu]
  obtain ⟨h', hc, hw', ⟨q, hu'⟩, ho', _⟩ := set_useList hw1 hsl1 v
  have hd1 : destroy h tmp = some h1 := hs1
  refine ⟨h', by simp [run, hd1, step, assign_var, hc], hw', ?_, by simp [get, hu'],
    by simp [utype, hu', hu], by simp [uptr, hu', hu], ?_⟩
  · rw [ho' tmp hne, hu1]
  · intro b hbt hbs
    rw [ho' b hbs, ho1 b hbt]

theorem push_back_spec {h : Heap} {c : VariableUseContainer} (hh : Held h c) (g : Growth)
    (v : Option VarId) (hf : g.fresh h c) :
    ∃ h', c.push_back h g v = some (h', { c with elems := grown c g }) ∧
      Held h' { c with elems := grown c g } ∧
      (grown c g).map (get h') = c.elems.map (get h) ++ [some v] := by
  obtain ⟨htf, hsf, hne, hm⟩ := hf
  have ht_el : g.tmp ∉ c.elems := fun hm' =>
    ne_of_free_of_live htf ((hh.live g.tmp).2 hm') rfl
  have hs_el : g.slot ∉ c.elems := fun hm' =>
    ne_of_free_of_live hsf ((hh.live g.slot).2 hm') rfl
  obtain ⟨h2, hr2, hw2, hgt2, hgs2, hts2, hps2, ho2⟩ :=
    push_head hh.wf c._type c._ptr htf hsf hne
  have hel2 : ∀ a ∈ c.elems, h2.uses a = h.uses a := by
    intro a ha
    exact ho2 a (fun e => ht_el (e ▸ ha)) (fun e => hs_el (e ▸ ha))
  rcases hg : g.moved with _ | new
  · obtain ⟨h', hr', hw', ht', hgs', hts', hps', ho'⟩ :=
      push_tail hw2 v (isSome_of_get hgt2) (isSome_of_get hgs2) hne
    have hel' : ∀ a ∈ c.elems, h'.uses a = h.uses a := by
      intro a ha
      rw [ho' a (fun e => ht_el (e ▸ ha)) (fun e => hs_el (e ▸ ha)), hel2 a ha]
    have hgrown : grown c g = c.elems ++ [g.slot] := by simp [grown, hg]
    refine ⟨h', ?_, ?_, ?_⟩
    · simp only [VariableUseContainer.push_back, hg, push_back_ops, List.append_nil,
        if_true, run_append, hr2, Option.bind_some, hr', Option.some_bind]
    · rw [hgrown]
      constructor
      · exact hw'
      · exact List.nodup_append.2 ⟨hh.nodup, by simp, by
          intro a ha hs
          simp only [List.mem_singleton] at hs
          exact hs_el (hs ▸ ha)⟩
      · intro a
        simp only [List.mem_append, List.mem_singleton]
        by_cases hs : a = g.slot
        · subst hs; simp [isSome_of_get hgs']
        · by_cases ht : a = g.tmp
          · subst ht; simp [ht', ht_el, hs]
          · rw [ho' a ht hs, ho2 a ht hs, hh.live a]; simp [hs]
      · intro a ha
        simp only [List.mem_append, List.mem_singleton] at ha
        rcases ha with ha | ha
        · simp only [utype, hel' a ha]; exact hh.typed a ha
        · subst ha; rw [hts', hts2]
      · intro a ha
        simp only [List.mem_append, List.mem_singleton] at ha
        rcases ha with ha | ha
        · simp only [uptr, hel' a ha]; exact hh.unstamped a ha
        · subst ha; rw [hps', hps2]
    · rw [hgrown, List.map_append, List.map_singleton, hgs']
      congr 1
      apply List.map_congr_left
      intro a ha
      simp only [get, hel' a ha]
  · rw [hg] at hm
    obtain ⟨hlen, hnd, htn, hsn, hnf⟩ := hm
    have hnew2 : ∀ a ∈ new, h2.uses a = none := by
      intro a ha
      rw [ho2 a (fun e => htn (e ▸ ha)) (fun e => hsn (e ▸ ha))]
      exact hnf a ha
    have hold2 : ∀ a ∈ c.elems, (h2.uses a).isSome := by
      intro a ha
      rw [hel2 a ha]
      exact (hh.live a).2 ha
    have hdisj : ∀ a ∈ new, a ∉ c.elems := fun a ha hm' =>
      ne_of_free_of_live (hnf a ha) ((hh.live a).2 hm') rfl
    obtain ⟨h3, hr3, hw3, ho3, hl3, hg3, ht3, hp3⟩ :=
      run_reloc g.by_move new c.elems h2 hw2 hlen hnd hh.nodup hnew2 hold2
    obtain ⟨h4, hr4, hw4, hd4, ho4, _⟩ := run_destroy_all c.elems h3 hw3 hh.nodup hl3
    have htmp4 : (h4.uses g.tmp).isSome := by
      rw [ho4 g.tmp ht_el, ho3 g.tmp htn ht_el]; exact isSome_of_get hgt2
    have hslot4 : h4.uses g.slot = h2.uses g.slot := by
      rw [ho4 g.slot hs_el, ho3 g.slot hsn hs_el]
    obtain ⟨h', hr', hw', ht', hgs', hts', hps', ho'⟩ :=
      push_tail hw4 v htmp4 (by rw [hslot4]; exact isSome_of_get hgs2) hne
    have hnew' : ∀ a ∈ new, h'.uses a = h3.uses a := by
      intro a ha
      rw [ho' a (fun e => htn (e ▸ ha)) (fun e => hsn (e ▸ ha)), ho4 a (hdisj a ha)]
    have hgetnew : ∀ a ∈ new, ∃ o ∈ c.elems, get h3 a = get h o ∧ utype h3 a = utype h o := by
      intro a ha
      obtain ⟨i, hi, rfl⟩ := List.mem_iff_getElem.1 ha
      have hi' : i < c.elems.length := hlen ▸ hi
      refine ⟨c.elems[i], List.getElem_mem _, ?_, ?_⟩
      · have := congrArg (fun l => l[i]?) hg3
        simp only [List.getElem?_map, List.getElem?_eq_getElem hi,
          List.getElem?_eq_getElem hi', Option.map_some', Option.some.injEq] at this
        rw [this]
        simp only [get, hel2 _ (List.getElem_mem _)]
      · have := congrArg (fun l => l[i]?) ht3
        simp only [List.getElem?_map, List.getElem?_eq_getElem hi,
          List.getElem?_eq_getElem hi', Option.map_some', Option.some.injEq] at this
        rw [this]
        simp only [utype, hel2 _ (List.getElem_mem _)]
    have hgrown : grown c g = new ++ [g.slot] := by simp [grown, hg]
    refine ⟨h', ?_, ?_, ?_⟩
    · have hcond : (new.length == c.elems.length) = true := by simp [hlen]
      simp only [VariableUseContainer.push_back, hg, hcond, push_back_ops, relocate_ops,
        if_true, run_append, hr2, Option.bind_some, hr3, hr4, hr', Option.some_bind]
    · rw [hgrown]
      constructor
      · exact hw'
      · exact List.nodup_append.2 ⟨hnd, by simp, by
          intro a ha hs
          simp only [List.mem_singleton] at hs
          exact hsn (hs ▸ ha)⟩
      · intro a
        simp only [List.mem_append, List.mem_singleton]
        by_cases hs : a = g.slot
        · subst hs; simp [isSome_of_get hgs']
        · by_cases ht : a = g.tmp
          · subst ht; simp [ht', htn, hs]
          · rw [ho' a ht hs]
            by_cases hold : a ∈ c.elems
            · have : a ∉ new := fun hm' => hdisj a hm' hold
              simp [hd4 a hold, this, hs]
            · rw [ho4 a hold]
              by_cases hn : a ∈ new
              · obtain ⟨o, ho, hgo, _⟩ := hgetnew a hn
                have hol : (h.uses o).isSome := (hh.live o).2 ho
                obtain ⟨uo, huo⟩ := Option.isSome_iff_exists.1 hol
                have : (h3.uses a).isSome := by
                  apply isSome_of_get (x := uo._var)
                  rw [hgo]; simp [get, huo]
                simp [this, hn]
              · rw [ho3 a hn hold, ho2 a ht hs]
                have : ¬ (h.uses a).isSome = true := fun hl => hold ((hh.live a).1 hl)
                simp [this, hn, hs]
      · intro a ha
        simp only [List.mem_append, List.mem_singleton] at ha
        rcases ha with ha | ha
        · obtain ⟨o, ho, _, hto⟩ := hgetnew a ha
          simp only [utype, hnew' a ha]
          exact hto.trans (hh.typed o ho)
        · subst ha; rw [hts']; simp only [utype, hslot4]; exact hts2
      · intro a ha
        simp only [List.mem_append, List.mem_singleton] at ha
        rcases ha with ha | ha
        · simp only [uptr, hnew' a ha]; exact hp3 a ha
        · subst ha; rw [hps']; simp only [uptr, hslot4]; exact hps2
    · rw [hgrown, List.map_append, List.map_singleton, hgs']
      congr 1
      have e1 : new.map (get h') = new.map (get h3) := by
        apply List.map_congr_left
        intro a ha
        simp only [get, hnew' a ha]
      rw [e1, hg3]
      apply List.map_congr_left
      intro a ha
      simp only [get, hel2 a ha]

theorem Held.initial (k : UserType) (p : UserPtr) :
    Held Heap.empty { _type := k, _ptr := p, elems := [] } where
  wf := WF.empty
  nodup := List.nodup_nil
  live := by intro a; simp [Heap.empty]
  typed := by intro a ha; simp at ha
  unstamped := by intro a ha; simp at ha

theorem Held.fresh_of_ok {h : Heap} {c : VariableUseContainer} (hh : Held h c) {g : Growth}
    (hg : g.ok c.elems) : g.fresh h c := by
  have hfree : ∀ a, a ∉ c.elems → h.uses a = none := by
    intro a ha
    rcases hu : h.uses a with _ | u
    · rfl
    · exact absurd ((hh.live a).1 (by rw [hu]; rfl)) ha
  obtain ⟨h1, h2, h3, h4⟩ := hg
  refine ⟨hfree _ h1, hfree _ h2, h3, ?_⟩
  rcases hm : g.moved with _ | new
  · trivial
  · rw [hm] at h4
    exact ⟨h4.1, h4.2.1, h4.2.2.1, h4.2.2.2.1, fun a ha => hfree a (h4.2.2.2.2 a ha)⟩

theorem push_all_spec (pushes : List (VarId × Growth)) :
    ∀ (h : Heap) (c : VariableUseContainer), Held h c → pushes_ok c pushes →
      ∃ h' c', push_all h c pushes = some (h', c') ∧ Held h' c' ∧
        c'._type = c._type ∧ c'._ptr = c._ptr ∧
        c'.elems.map (get h') = c.elems.map (get h) ++ pushes.map (fun e => some (some e.1)) := by
  induction pushes with
  | nil =>
    intro h c hh _
    exact ⟨h, c, rfl, hh, rfl, rfl, by simp⟩
  | cons e pushes ih =>
    intro h c hh hok
    obtain ⟨v, g⟩ := e
    obtain ⟨hg, hrest⟩ := hok
    obtain ⟨h1, hp1, hh1, hm1⟩ := push_back_spec hh g (some v) (hh.fresh_of_ok hg)
    obtain ⟨h', c', hp', hh', ht', hq', hm'⟩ := ih h1 _ hh1 hrest
    refine ⟨h', c', ?_, hh', ht', hq', ?_⟩
    · simp only [push_all, hp1]
      exact hp'
    · rw [hm', hm1]
      simp

theorem Held.mem_useList_iff_elem {h : Heap} {c : VariableUseContainer} (hh : Held h c)
    (v : VarId) (a : Addr) : a ∈ h.useList v ↔ a ∈ c.elems ∧ get h a = some (some v) := by
  constructor
  · intro hm
    obtain ⟨u, hu, hv⟩ := hh.wf.mem_useList_live hm
    exact ⟨(hh.live a).1 (by rw [hu]; rfl), by simp [get, hu, hv]⟩
  · rintro ⟨_, hg⟩
    rcases hu : h.uses a with _ | u
    · simp [get, hu] at hg
    · simp only [get, hu, Option.map_some', Option.some.injEq] at hg
      exact (hh.wf.mem_useList_iff hu v).2 hg

/-! ## Creating uses of one variable -/

theorem run_create (h : Heap) (v : VarId) (cs : List (Addr × Creation)) :
    ∀ (made : List Addr) (hc : Heap), WF hc → (cs.map Prod.fst).Nodup →
      (∀ a ∈ cs.map Prod.fst, hc.uses a = none) →
      (∀ s ∈ made, get hc s = some (some v)) →
      (∀ s, get h s = some (some v) → get hc s = some (some v)) →
      sources_ok h v made cs →
      ∃ h1, run hc (create_ops v cs) = some h1 ∧ WF h1 ∧
        (∀ w, h1.useList w = hc.useList w ++ if w = v then cs.map Prod.fst else []) ∧
        (∀ a ∈ cs.map Prod.fst, (h1.uses a).isSome) ∧
        (∀ b, b ∉ cs.map Prod.fst → h1.uses b = hc.uses b) := by
  induction cs with
  | nil =>
    intro made hc hw _ _ _ _ _
    exact ⟨hc, rfl, hw, by simp, by simp, fun _ _ => rfl⟩
  | cons e cs ih =>
    intro made hc hw hnd hfree hmade hkeep hsrc
    obtain ⟨a, cr⟩ := e
    simp only [List.map_cons, List.nodup_cons] at hnd
    have haf : hc.uses a = none := hfree a (by simp)
    -- the state after the creation of `a`
    have hstep : ∃ h2, run hc (cr.ops v a) = some h2 ∧ WF h2 ∧
        (∀ w, h2.useList w = hc.useList w ++ if w = v then [a] else []) ∧
        get h2 a = some (some v) ∧ (∀ b, b ≠ a → h2.uses b = hc.uses b) ∧
        sources_ok h v (a :: made) cs := by
      cases cr with
      | by_set k p =>
        obtain ⟨h1, hc1, hw1, hu1, ho1, hl1⟩ := construct_spec hw haf k p
        obtain ⟨h2, hc2, hw2, ⟨q, hu2⟩, ho2, hl2⟩ := set_useList hw1 hu1 (some v)
        refine ⟨h2, by simp [Creation.ops, run, step, hc1, hc2], hw2, ?_, by simp [get, hu2],
          ?_, hsrc⟩
        · intro w
          rw [hl2 w]
          simp only [Heap.useList, hl1]
          by_cases e : w = v
          · subst e; simp
          · have : v ≠ w := fun e' => e e'.symm
            simp [e, this]
        · intro b hb
          rw [ho2 b hb, ho1 b hb]
      | by_copy s =>
        obtain ⟨hs, hrest⟩ := hsrc
        have hgs : get hc s = some (some v) := by
          rcases hs with hs | hs
          · exact hmade s hs
          · exact hkeep s hs
        rcases hus : hc.uses s with _ | o
        · simp [get, hus] at hgs
        · simp only [get, hus, Option.map_some', Option.some.injEq] at hgs
          obtain ⟨h2, hc2, hw2, ⟨q, hu2⟩, ho2, hl2⟩ := copy_construct_useList hw haf hus
          refine ⟨h2, by simp [Creation.ops, run, step, hc2], hw2, ?_,
            by simp [get, hu2, hgs], ho2, hrest⟩
          intro w
          rw [hl2 w, hgs]
          by_cases e : w = v
          · subst e; simp
          · have : v ≠ w := fun e' => e e'.symm
            simp [e, this]
    obtain ⟨h2, hr2, hw2, hl2, hg2, ho2, hsrc2⟩ := hstep
    have hne_live : ∀ s, (hc.uses s).isSome → s ≠ a := fun s hs =>
      (ne_of_free_of_live haf hs).symm
    obtain ⟨h1, hr1, hw1, hl1, hlive1, ho1⟩ := ih (a :: made) h2 hw2 hnd.2
      (by
        intro b hb
        have hba : b ≠ a := fun e => hnd.1 (e ▸ hb)
        rw [ho2 b hba]
        exact hfree b (List.mem_cons_of_mem _ hb))
      (by
        intro s hs
        rcases List.mem_cons.1 hs with e | hs
        · subst e; exact hg2
        · have := hmade s hs
          simp only [get, ho2 s (hne_live s (isSome_of_get this))]
          exact this)
      (by
        intro s hs
        have := hkeep s hs
        simp only [get, ho2 s (hne_live s (isSome_of_get this))]
        exact this)
      hsrc2
    refine ⟨h1, ?_, hw1, ?_, ?_, ?_⟩
    · simp only [create_ops, run_append, hr2, Option.some_bind]
      exact hr1
    · intro w
      rw [hl1 w, hl2 w]
      by_cases e : w = v <;> simp [e]
    · intro b hb
      simp only [List.map_cons, List.mem_cons] at hb
      rcases hb with e | hb
      · subst e
        rw [ho1 b hnd.1]
        exact isSome_of_get hg2
      · exact hlive1 b hb
    · intro b hb
      simp only [List.map_cons, List.mem_cons, not_or] at hb
      rw [ho1 b hb.2, ho2 b hb.1]

/-! ## The use-list invariant -/

/-- C1: from the state with no uses, after every sequence of `VariableUse` operations that runs,
a live use is in the use-list of `v` exactly when `get` returns `v`; no use-list has a
duplicate; every entry of a use-list is a live use resolved to that variable, and that use's
`_pos` designates the entry; and every further operation on live operands runs. -/
theorem use_list_biconditional (ops : List Op) (h : Heap)
    (hr : run Heap.empty ops = some h) :
    (∀ v a, (h.uses a).isSome → (a ∈ h.useList v ↔ get h a = some (some v))) ∧
    (∀ v, (h.useList v).Nodup) ∧
    (∀ v a, a ∈ h.useList v → get h a = some (some v)) ∧
    (∀ a u v, h.uses a = some u → u._var = some v →
      ∃ n, u._pos = some n ∧ (n, a) ∈ h._uses v) ∧
    (∀ op : Op, op.valid h → ∃ h', step h op = some h') := by
  have hw : WF h := run_wf WF.empty ops hr
  refine ⟨?_, hw.useList_nodup, ?_, hw.resolved_entry, ?_⟩
  · intro v a hl
    obtain ⟨u, hu⟩ := Option.isSome_iff_exists.1 hl
    rw [hw.mem_useList_iff hu v]
    simp [get, hu]
  · intro v a hm
    obtain ⟨u, hu, hv⟩ := hw.mem_useList_live hm
    simp [get, hu, hv]
  · intro op hv
    obtain ⟨h', e, _⟩ := step_progress hw op hv
    exact ⟨h', e⟩

/-- C1 at a run that constructs, sets, copies, moves and destroys. -/
theorem use_list_biconditional_witness :
    ∃ h, run Heap.empty [Op.construct 1 UserType.Havoc 7, Op.set 1 (some 3),
        Op.copy_construct 2 1, Op.move_construct 5 1, Op.destroy 1] = some h ∧
      h.useList 3 = [2, 5] ∧
      ((∀ v a, (h.uses a).isSome → (a ∈ h.useList v ↔ get h a = some (some v))) ∧
       (∀ v, (h.useList v).Nodup) ∧
       (∀ v a, a ∈ h.useList v → get h a = some (some v)) ∧
       (∀ a u v, h.uses a = some u → u._var = some v →
         ∃ n, u._pos = some n ∧ (n, a) ∈ h._uses v) ∧
       (∀ op : Op, op.valid h → ∃ h', step h op = some h')) :=
  ⟨_, rfl, rfl, use_list_biconditional [Op.construct 1 UserType.Havoc 7, Op.set 1 (some 3),
        Op.copy_construct 2 1, Op.move_construct 5 1, Op.destroy 1] _ rfl⟩

/-! ## Attach, detach, copy and move -/

/-- C2: `set ( v )` on an unresolved use `a` with `v` non-null appends `a` at the tail of the
use-list of `v`, keeps the existing entries in order, makes `get` return `v`, and touches no
other use-list and no other use. -/
theorem set_appends_at_tail (h : Heap) (a : Addr) (u : VariableUse) (v : VarId)
    (hu : h.uses a = some u) (hun : u._var = none) :
    ∃ h', set h a (some v) = some h' ∧ h'.useList v = h.useList v ++ [a] ∧
      get h' a = some (some v) ∧ (∀ w, w ≠ v → h'.useList w = h.useList w) ∧
      (∀ b, b ≠ a → h'.uses b = h.uses b) := by
  refine ⟨{ uses := Function.update h.uses a
              (some { _var := some v, _pos := some h.next, user_type := u.user_type,
                      user_ptr := u.user_ptr })
            _uses := Function.update h._uses v (h._uses v ++ [(h.next, a)])
            next := h.next + 1 }, by simp only [set, release, hu, hun], ?_, ?_, ?_, ?_⟩
  · simp [Heap.useList]
  · simp [get]
  · intro w hwv
    simp [Heap.useList, Function.update_noteq hwv]
  · intro b hba
    simp [Function.update_noteq hba]

/-- C2 at the unresolved use `6` of the sample state and variable `3`. -/
theorem set_appends_at_tail_witness :
    sampleHeap.useList 3 = [2, 5] ∧
    ∃ h', set sampleHeap 6 (some 3) = some h' ∧ h'.useList 3 = sampleHeap.useList 3 ++ [6] ∧
      get h' 6 = some (some 3) ∧ (∀ w, w ≠ 3 → h'.useList w = sampleHeap.useList w) ∧
      (∀ b, b ≠ 6 → h'.uses b = sampleHeap.uses b) :=
  ⟨rfl, set_appends_at_tail sampleHeap 6
    { _var := none, _pos := none, user_type := UserType.VariableReference, user_ptr := some 11 }
    3 rfl rfl⟩

/-- C3: in a consistent state the first `release()` of a live use `a` returns the variable
`a` was resolved to (null if none), removes the entry of `a`, and nothing else, from that
variable's use-list, leaves every other use-list and every other use as it was and leaves
`a` unresolved; a second `release()` returns null and leaves the state unchanged. -/
theorem release_idempotent (h : Heap) (hw : WF h) (a : Addr) (u : VariableUse)
    (hu : h.uses a = some u) :
    ∃ h1, release h a = some (h1, u._var) ∧
      (∀ w, h1.useList w = if u._var = some w then (h.useList w).erase a else h.useList w) ∧
      (∀ w, a ∉ h1.useList w) ∧
      get h1 a = some none ∧ (∀ b, b ≠ a → h1.uses b = h.uses b) ∧
      release h1 a = some (h1, none) := by
  obtain ⟨h1, hr, hw1, _, hu1, ho1, hl1⟩ := release_spec hw hu
  refine ⟨h1, hr, ?_, hw1.not_mem_useList_of_unresolved hu1 rfl, by simp [get, hu1], ho1, ?_⟩
  · intro w
    by_cases c : u._var = some w
    · simp only [Heap.useList, hl1 w, if_pos c]
      exact hw.useList_filter w a
    · simp only [Heap.useList, hl1 w, if_neg c]
  · simp only [release, hu1]

/-- C3 at use `2` of the sample state, which is resolved to variable `3`. -/
theorem release_idempotent_witness :
    sampleHeap.useList 3 = [2, 5] ∧
    ∃ h1, release sampleHeap 2 = some (h1, some 3) ∧
      (∀ w, h1.useList w =
        if some 3 = some w then (sampleHeap.useList w).erase 2 else sampleHeap.useList w) ∧
      (∀ w, 2 ∉ h1.useList w) ∧
      get h1 2 = some none ∧ (∀ b, b ≠ 2 → h1.uses b = sampleHeap.uses b) ∧
      release h1 2 = some (h1, none) :=
  ⟨rfl, release_idempotent sampleHeap sampleHeap_wf 2
    { _var := some 3, _pos := some 1, user_type := UserType.Havoc, user_ptr := none } rfl⟩

/-- C4: in a consistent state, copy-constructing `d` (at an unused address) from a live use
`s` leaves `s` as it was and makes `get` of `d` return what `get` of `s` returns.  When `s`
is resolved to `v`, the use-list of `v` becomes the old list followed by `d`, one entry
longer, with the entry of `s` in place; releasing `d` afterwards restores the old list (the
entry of `s` stays), and releasing `s` instead removes only the entry of `s` (the entry of
`d` stays).  The use-list of every other variable, and every use-list when `s` is
unresolved, is unchanged. -/
theorem copy_construct_independent (h : Heap) (hw : WF h) (d s : Addr) (o : VariableUse)
    (hfree : h.uses d = none) (hs : h.uses s = some o) :
    ∃ h', copy_construct h d s = some h' ∧
      h'.uses s = some o ∧ get h' d = some o._var ∧
      (∀ b, b ≠ d → h'.uses b = h.uses b) ∧
      (∀ v, o._var = some v →
        h'.useList v = h.useList v ++ [d] ∧ s ∈ h.useList v ∧
        (h'.useList v).length = (h.useList v).length + 1 ∧
        (∃ h1, release h' d = some (h1, some v) ∧ h1.useList v = h.useList v ∧
          s ∈ h1.useList v ∧ d ∉ h1.useList v) ∧
        (∃ h2, release h' s = some (h2, some v) ∧
          h2.useList v = (h.useList v).erase s ++ [d] ∧ d ∈ h2.useList v ∧
          s ∉ h2.useList v)) ∧
      (∀ v, o._var ≠ some v → h'.useList v = h.useList v) := by
  have hsd : s ≠ d := by intro e; rw [e, hfree] at hs; cases hs
  obtain ⟨h', hc, hw', ⟨p, hu'⟩, ho', hl'⟩ := copy_construct_useList hw hfree hs
  have hs' : h'.uses s = some o := by rw [ho' s hsd, hs]
  refine ⟨h', hc, hs', by simp [get, hu'], ho', ?_, ?_⟩
  · intro v hv
    have hL : h'.useList v = h.useList v ++ [d] := by rw [hl' v, if_pos hv]
    have hsL : s ∈ h.useList v := (hw.mem_useList_iff hs v).2 hv
    have hdL : d ∉ h.useList v := hw.not_mem_useList_of_free hfree v
    refine ⟨hL, hsL, by simp [hL], ?_, ?_⟩
    · obtain ⟨h1, hr, hw1, hu1, _, hl1⟩ := release_useList hw' hu'
      have e1 : h1.useList v = h.useList v := by
        rw [hl1 v, if_pos hv, hL, List.erase_append_right _ hdL]
        simp
      exact ⟨h1, by rw [hr, hv], e1, by rw [e1]; exact hsL, by rw [e1]; exact hdL⟩
    · obtain ⟨h2, hr, hw2, hu2, _, hl2⟩ := release_useList hw' hs'
      have e2 : h2.useList v = (h.useList v).erase s ++ [d] := by
        rw [hl2 v, if_pos hv, hL, List.erase_append_left _ hsL]
      exact ⟨h2, by rw [hr, hv], e2, by simp [e2],
        hw2.not_mem_useList_of_unresolved hu2 rfl v⟩
  · intro v hv
    rw [hl' v, if_neg hv, List.append_nil]

/-- C4 at the sample state: use `9` copy-constructed from use `2`, which is resolved to
variable `3`. -/
theorem copy_construct_independent_witness :
    sampleHeap.useList 3 = [2, 5] ∧
    ∃ h', copy_construct sampleHeap 9 2 = some h' ∧
      h'.uses 2 = some { _var := some 3, _pos := some 1, user_type := UserType.Havoc,
                         user_ptr := none } ∧
      get h' 9 = some (some 3) ∧
      (∀ b, b ≠ 9 → h'.uses b = sampleHeap.uses b) ∧
      (∀ v, some 3 = some v →
        h'.useList v = sampleHeap.useList v ++ [9] ∧ 2 ∈ sampleHeap.useList v ∧
        (h'.useList v).length = (sampleHeap.useList v).length + 1 ∧
        (∃ h1, release h' 9 = some (h1, some v) ∧ h1.useList v = sampleHeap.useList v ∧
          2 ∈ h1.useList v ∧ 9 ∉ h1.useList v) ∧
        (∃ h2, release h' 2 = some (h2, some v) ∧
          h2.useList v = (sampleHeap.useList v).erase 2 ++ [9] ∧ 9 ∈ h2.useList v ∧
          2 ∉ h2.useList v)) ∧
      (∀ v, some 3 ≠ some v → h'.useList v = sampleHeap.useList v) :=
  ⟨rfl, copy_construct_independent sampleHeap sampleHeap_wf 9 2
    { _var := some 3, _pos := some 1, user_type := UserType.Havoc, user_ptr := none } rfl rfl⟩

/-- C5: in a consistent state, move-constructing `d` (at an unused address) from a use `s`
resolved to `v` leaves `s` unresolved and in no use-list, makes `get` of `d` return `v` with
`d` exactly once in the use-list of `v`, which is the old list without `s` followed by `d`
and has the old length; the use-list of every other variable and every other use are
unchanged. -/
theorem move_construct_relocates (h : Heap) (hw : WF h) (d s : Addr) (o : VariableUse)
    (v : VarId) (hfree : h.uses d = none) (hs : h.uses s = some o) (hv : o._var = some v) :
    ∃ h', move_construct h d s = some h' ∧
      get h' s = some none ∧ (∀ w, s ∉ h'.useList w) ∧
      get h' d = some (some v) ∧ (h'.useList v).count d = 1 ∧
      h'.useList v = (h.useList v).erase s ++ [d] ∧
      (h'.useList v).length = (h.useList v).length ∧
      (∀ w, w ≠ v → h'.useList w = h.useList w) ∧
      (∀ b, b ≠ d → b ≠ s → h'.uses b = h.uses b) := by
  obtain ⟨h', hc, hw', ⟨p, hu'⟩, hs', ho', hl'⟩ := move_construct_useList hw hfree hs
  have hL : h'.useList v = (h.useList v).erase s ++ [d] := by
    rw [hl' v, if_pos hv, if_pos hv]
  have hsL : s ∈ h.useList v := (hw.mem_useList_iff hs v).2 hv
  refine ⟨h', hc, by simp [get, hs'], hw'.not_mem_useList_of_unresolved hs' rfl,
    by simp [get, hu', hv], ?_, hL, ?_, ?_, ho'⟩
  · exact List.count_eq_one_of_mem (hw'.useList_nodup v) (by simp [hL])
  · rw [hL, List.length_append, List.length_erase_of_mem hsL]
    have : 0 < (h.useList v).length := List.length_pos_of_mem hsL
    simp only [List.length_singleton]
    omega
  · intro w hwv
    have hne : o._var ≠ some w := by rw [hv]; intro e; exact hwv (Option.some.inj e).symm
    rw [hl' w, if_neg hne, if_neg hne, List.append_nil]

/-- C5 at the sample state: use `9` move-constructed from use `2`, which is resolved to
variable `3`. -/
theorem move_construct_relocates_witness :
    sampleHeap.useList 3 = [2, 5] ∧
    ∃ h', move_construct sampleHeap 9 2 = some h' ∧
      get h' 2 = some none ∧ (∀ w, 2 ∉ h'.useList w) ∧
      get h' 9 = some (some 3) ∧ (h'.useList 3).count 9 = 1 ∧
      h'.useList 3 = (sampleHeap.useList 3).erase 2 ++ [9] ∧
      (h'.useList 3).length = (sampleHeap.useList 3).length ∧
      (∀ w, w ≠ 3 → h'.useList w = sampleHeap.useList w) ∧
      (∀ b, b ≠ 9 → b ≠ 2 → h'.uses b = sampleHeap.uses b) :=
  ⟨rfl, move_construct_relocates sampleHeap sampleHeap_wf 9 2
    { _var := some 3, _pos := some 1, user_type := UserType.Havoc, user_ptr := none } 3
    rfl rfl rfl⟩

/-! ## The operand list -/

/-- C6: variables pushed one at a time into an empty container over the state with no uses,
the vector reallocating (by move or by copy) at any of the pushes, with each push given
unused addresses: every push runs; afterwards the container holds as many uses as were
pushed, the i-th resolved to the i-th variable; a use is in the use-list of `v` exactly when
it is a current element resolved to `v`; no use-list has a duplicate; and only the current
elements are alive, so no use-list has an entry for an old slot. -/
theorem push_back_relocation_safe (k : UserType) (p : UserPtr)
    (pushes : List (VarId × Growth))
    (hok : pushes_ok { _type := k, _ptr := p, elems := [] } pushes) :
    ∃ h c, push_all Heap.empty { _type := k, _ptr := p, elems := [] } pushes = some (h, c) ∧
      c.elems.length = pushes.length ∧
      c.elems.map (get h) = pushes.map (fun e => some (some e.1)) ∧
      (∀ v a, a ∈ h.useList v ↔ a ∈ c.elems ∧ get h a = some (some v)) ∧
      (∀ v, (h.useList v).Nodup) ∧ c.elems.Nodup ∧
      (∀ a, (h.uses a).isSome ↔ a ∈ c.elems) := by
  obtain ⟨h, c, hp, hh, _, _, hm⟩ := push_all_spec pushes _ _ (Held.initial k p) hok
  simp only [List.map_nil, List.nil_append] at hm
  refine ⟨h, c, hp, ?_, hm, hh.mem_useList_iff_elem, hh.wf.useList_nodup, hh.nodup, hh.live⟩
  have := congrArg List.length hm
  simpa using this

/-- C6 at three pushes of which two reallocate. -/
theorem push_back_relocation_safe_witness :
    pushes_ok (VariableUseContainer.of_hvc 42) samplePushes ∧
    ∃ h c, push_all Heap.empty (VariableUseContainer.of_hvc 42) samplePushes = some (h, c) ∧
      c.elems.length = samplePushes.length ∧
      c.elems.map (get h) = samplePushes.map (fun e => some (some e.1)) ∧
      (∀ v a, a ∈ h.useList v ↔ a ∈ c.elems ∧ get h a = some (some v)) ∧
      (∀ v, (h.useList v).Nodup) ∧ c.elems.Nodup ∧
      (∀ a, (h.uses a).isSome ↔ a ∈ c.elems) :=
  ⟨by simp [pushes_ok, Growth.ok, samplePushes, grown, VariableUseContainer.of_hvc],
   push_back_relocation_safe UserType.Havoc 42 samplePushes
    (by simp [pushes_ok, Growth.ok, samplePushes, grown])⟩

/-- C7 (the code at the failing input): `push_back` into an empty container for owner tag
`k` and owner pointer `p` stores a use that has the tag `k` and a `user_ptr` that no
constructor has written to; it is not `p`. -/
theorem push_back_drops_owner_pointer (k : UserType) (p : UserPtr) :
    ∃ h c, VariableUseContainer.push_back Heap.empty { _type := k, _ptr := p, elems := [] }
        { tmp := 100, slot := 1, moved := none, by_move := true } (some 3) = some (h, c) ∧
      c.elems = [1] ∧ utype h 1 = some k ∧ uptr h 1 = some none ∧
      uptr h 1 ≠ some (some p) :=
  ⟨_, _, rfl, rfl, rfl, rfl, by simp [uptr]⟩

/-! ## Destruction -/

/-- C9: in a consistent state, creating uses resolved to `v` at unused, distinct addresses,
each by construction and `set ( v )` or by copy-construction from a use resolved to `v`,
appends them to the use-list of `v`; destroying all of them afterwards, in any order,
runs and leaves every use-list and every use as before the creations, so a use-list that
was empty is empty again. -/
theorem destruction_cleanup (h : Heap) (hw : WF h) (v : VarId)
    (cs : List (Addr × Creation)) (ds : List Addr)
    (hnd : (cs.map Prod.fst).Nodup) (hfree : ∀ a ∈ cs.map Prod.fst, h.uses a = none)
    (hsrc : sources_ok h v [] cs) (hperm : ds.Perm (cs.map Prod.fst)) :
    ∃ h1 h2, run h (create_ops v cs) = some h1 ∧
      h1.useList v = h.useList v ++ cs.map Prod.fst ∧
      run h1 (ds.map Op.destroy) = some h2 ∧
      run h (create_ops v cs ++ ds.map Op.destroy) = some h2 ∧
      (∀ w, h2.useList w = h.useList w) ∧ (∀ b, h2.uses b = h.uses b) ∧
      (h.useList v = [] → (h2.useList v).length = 0) := by
  obtain ⟨h1, hr1, hw1, hl1, hlive1, ho1⟩ :=
    run_create h v cs [] h hw hnd hfree (by simp) (fun _ hs => hs) hsrc
  have hmem : ∀ a, a ∈ ds ↔ a ∈ cs.map Prod.fst := fun a => hperm.mem_iff
  obtain ⟨h2, hr2, hw2, hd2, ho2, hl2⟩ := run_destroy_all ds h1 hw1
    (hperm.nodup_iff.2 hnd) (fun a ha => hlive1 a ((hmem a).1 ha))
  have hlists : ∀ w, h2.useList w = h.useList w := by
    intro w
    rw [hl2 w, hl1 w, List.filter_append]
    have e1 : (h.useList w).filter (fun b => decide (b ∉ ds)) = h.useList w := by
      rw [List.filter_eq_self]
      intro b hb
      have : b ∉ ds := by
        intro hbd
        obtain ⟨u, hu, _⟩ := hw.mem_useList_live hb
        rw [hfree b ((hmem b).1 hbd)] at hu
        cases hu
      simp [this]
    have e2 : (if w = v then cs.map Prod.fst else []).filter (fun b => decide (b ∉ ds))
        = [] := by
      rw [List.filter_eq_nil_iff]
      intro b hb
      split at hb
      · simp [(hmem b).2 hb]
      · simp at hb
    rw [e1, e2, List.append_nil]
  refine ⟨h1, h2, hr1, by rw [hl1 v, if_pos rfl], hr2, ?_, hlists, ?_, ?_⟩
  · rw [run_append, hr1, Option.some_bind, hr2]
  · intro b
    by_cases hb : b ∈ ds
    · rw [hd2 b hb, hfree b ((hmem b).1 hb)]
    · rw [ho2 b hb, ho1 b (fun hm => hb ((hmem b).2 hm))]
  · intro he
    rw [hlists v, he]
    rfl

/-- C9 at the sample state: three uses of variable `3` created (one by `set`, one copied from
an older use, one copied from the first) and destroyed in another order. -/
theorem destruction_cleanup_witness :
    sampleHeap.useList 3 = [2, 5] ∧
    ∃ h1 h2, run sampleHeap (create_ops 3 [(20, Creation.by_set UserType.Havoc 1),
          (21, Creation.by_copy 2), (22, Creation.by_copy 20)]) = some h1 ∧
      h1.useList 3 = sampleHeap.useList 3 ++ [20, 21, 22] ∧
      run h1 ([21, 22, 20].map Op.destroy) = some h2 ∧
      run sampleHeap (create_ops 3 [(20, Creation.by_set UserType.Havoc 1),
          (21, Creation.by_copy 2), (22, Creation.by_copy 20)]
        ++ [21, 22, 20].map Op.destroy) = some h2 ∧
      (∀ w, h2.useList w = sampleHeap.useList w) ∧ (∀ b, h2.uses b = sampleHeap.uses b) ∧
      (sampleHeap.useList 3 = [] → (h2.useList 3).length = 0) :=
  ⟨rfl, destruction_cleanup sampleHeap sampleHeap_wf 3
    [(20, Creation.by_set UserType.Havoc 1), (21, Creation.by_copy 2), (22, Creation.by_copy 20)]
    [21, 22, 20] (by decide)
    (by intro a ha
        simp only [List.map_cons, List.map_nil, List.mem_cons, List.mem_singleton,
          List.not_mem_nil, or_false] at ha
        rcases ha with rfl | rfl | rfl <;> rfl)
    ⟨Or.inr rfl, Or.inl (by decide), trivial⟩ (by decide)⟩

/-! ## `VariableReference` -/

/-- C8 as stated fails: constructing a `VariableReference` to a variable with no registered
use leaves it with no registered use, not with one. -/
theorem variable_reference_use_count_counterexample :
    ((VariableReference.construct Heap.empty
        { addr := 3, name := "x", type := { scalar := ScalarType.Integral, array := false } }
        false).1.useList 3).length
      ≠ (Heap.empty.useList 3).length + 1 := by
  decide

/-- C8 amended: constructing a `VariableReference` to `var` yields a node that refers to
`var`, has the given primed flag and the type of `var`, and leaves the use lists, so the use
count of `var`, unchanged; `clone` yields an equal node, to the same variable with the same
primed flag, and leaves the use lists unchanged too. -/
theorem variable_reference_registers_no_use (h : Heap) (var : Variable) (primed : Bool) :
    (VariableReference.construct h var primed).2 = Term.VariableReference var primed ∧
    (VariableReference.construct h var primed).2.type = var.type ∧
    (VariableReference.construct h var primed).1 = h ∧
    ((VariableReference.construct h var primed).1.useList var.addr).length
      = (h.useList var.addr).length ∧
    (VariableReference.clone h var primed).2 = Term.VariableReference var primed ∧
    (Term.VariableReference var primed).clone = Term.VariableReference var primed ∧
    (VariableReference.clone h var primed).1 = h ∧
    ((VariableReference.clone h var primed).1.useList var.addr).length
      = (h.useList var.addr).length :=
  ⟨rfl, rfl, rfl, rfl, rfl, rfl, rfl, rfl⟩

/-! ## `QuantifiedType` -/

/-- C10 (the code at the failing input): whatever a default-constructed `DataType` is, one of
two constructions whose bounds have exactly the declared scalar type fails with `TypeError`:
`Integral` with bounds `0` and `10`, or `Bool` with two `Bool` constants; and a declared
scalar type is accepted with bounds of another type, the default-constructed one.  The
other two parts of the claim hold: the one-argument constructor fails exactly on the types
that are not scalar, and the three-argument one fails on every such type. -/
theorem quantified_type_compares_with_default (dflt : DataType) :
    (QuantifiedType.construct_range dflt { scalar := ScalarType.Integral, array := false }
        (Term.IntConstant 0) (Term.IntConstant 10) = Except.error Error.TypeError ∨
     QuantifiedType.construct_range dflt { scalar := ScalarType.Bool, array := false }
        (Term.UserConstant { scalar := ScalarType.Bool, array := false } "false")
        (Term.UserConstant { scalar := ScalarType.Bool, array := false } "true")
        = Except.error Error.TypeError) ∧
    (∃ t : DataType, t.is_scalar = true ∧ t ≠ dflt ∧
      QuantifiedType.construct_range dflt t (Term.UserConstant dflt "0")
        (Term.UserConstant dflt "10")
        = Except.ok { _t := t, _from := some (Term.UserConstant dflt "0"),
                      _to := some (Term.UserConstant dflt "10") }) ∧
    (∀ t : DataType,
      QuantifiedType.construct t = Except.error Error.TypeError ↔ t.is_scalar = false) ∧
    (∀ (s : ScalarType) (from_ to_ : Term),
      QuantifiedType.construct_range dflt { scalar := s, array := true } from_ to_
        = Except.error Error.TypeError) := by
  refine ⟨?_, ?_, ?_, fun _ _ _ => rfl⟩
  · obtain ⟨sc, ar⟩ := dflt
    cases sc <;> cases ar <;>
      first
      | exact Or.inl rfl
      | exact Or.inr rfl
  · obtain ⟨sc, ar⟩ := dflt
    cases sc <;> cases ar <;>
      first
      | exact ⟨{ scalar := ScalarType.Real, array := false }, rfl, by decide, rfl⟩
      | exact ⟨{ scalar := ScalarType.Integral, array := false }, rfl, by decide, rfl⟩
  · intro t
    obtain ⟨sc, ar⟩ := t
    cases ar <;> simp [QuantifiedType.construct, DataType.is_scalar]

/-! ## Typing of the nodes -/

/-- C11: `BooleanTerm ( t )` yields the node that wraps `t` exactly when the type of `t` is
scalar and its scalar type is `Bool`, and throws `TypeError` exactly otherwise; it yields
no other node. -/
theorem boolean_term_requires_scalar_bool (t : Term) :
    (BooleanTerm.construct t = Except.ok (Formula.BooleanTerm t) ↔
      (t.type.is_scalar = true ∧ t.type.scalar_type = some ScalarType.Bool)) ∧
    (BooleanTerm.construct t = Except.error Error.TypeError ↔
      ¬ (t.type.is_scalar = true ∧ t.type.scalar_type = some ScalarType.Bool)) ∧
    (BooleanTerm.construct t = Except.ok (Formula.BooleanTerm t) ∨
      BooleanTerm.construct t = Except.error Error.TypeError) := by
  unfold BooleanTerm.construct
  generalize t.type = ty
  obtain ⟨sc, ar⟩ := ty
  cases sc <;> cases ar <;> simp [DataType.is_scalar, DataType.scalar_type]

/-- C12: for every coercion function `c`, every pair of terms and every operator,
`ArithmeticOperation` and `Relation` are constructed exactly when `c` succeeds on the two
operand types, the node then holds the operands in order and the coerced type as its type,
and the exception of `c`, a `TypeError`, leaves the constructor otherwise; whether the
construction succeeds and the type do not depend on the operator.  The coercion of the spec
accepts two scalar types exactly when they are of the same kind, gives that kind, and gives
the same answer with the operands exchanged. -/
theorem binary_node_typing (c : DataType → DataType → Except Error DataType)
    (t1 t2 : Term) :
    (∀ op : ArithOp, ArithmeticOperation.construct c op t1 t2
        = (c t1.type t2.type).map (fun ty => Term.ArithmeticOperation op ty t1 t2)) ∧
    (∀ op : ArithOp, (ArithmeticOperation.construct c op t1 t2).map Term.type
        = c t1.type t2.type) ∧
    (∀ op : RelationOp, Relation.construct c op t1 t2
        = (c t1.type t2.type).map (fun ty => Formula.Relation op ty t1 t2)) ∧
    (∀ op op' : ArithOp, (ArithmeticOperation.construct c op t1 t2).map Term.type
        = (ArithmeticOperation.construct c op' t1 t2).map Term.type) ∧
    (∀ op : ArithOp, ArithmeticOperation.construct c op t1 t2 = Except.error Error.TypeError
        ↔ c t1.type t2.type = Except.error Error.TypeError) ∧
    (∀ op : RelationOp, Relation.construct c op t1 t2 = Except.error Error.TypeError
        ↔ c t1.type t2.type = Except.error Error.TypeError) ∧
    (∀ s1 s2 : ScalarType,
      coerce { scalar := s1, array := false } { scalar := s2, array := false }
        = if s1 = s2 then Except.ok { scalar := s1, array := false }
          else Except.error Error.TypeError) ∧
    (∀ s1 s2 : ScalarType,
      coerce { scalar := s1, array := false } { scalar := s2, array := false }
        = coerce { scalar := s2, array := false } { scalar := s1, array := false }) ∧
    coerce { scalar := ScalarType.Bool, array := false }
        { scalar := ScalarType.Integral, array := false } = Except.error Error.TypeError := by
  have hA : ∀ op : ArithOp, ArithmeticOperation.construct c op t1 t2
      = (c t1.type t2.type).map (fun ty => Term.ArithmeticOperation op ty t1 t2) := by
    intro op
    unfold ArithmeticOperation.construct
    rcases c t1.type t2.type with e | ty <;> rfl
  have hR : ∀ op : RelationOp, Relation.construct c op t1 t2
      = (c t1.type t2.type).map (fun ty => Formula.Relation op ty t1 t2) := by
    intro op
    unfold Relation.construct
    rcases c t1.type t2.type with e | ty <;> rfl
  have hT : ∀ op : ArithOp, (ArithmeticOperation.construct c op t1 t2).map Term.type
      = c t1.type t2.type := by
    intro op
    rw [hA op]
    rcases c t1.type t2.type with e | ty <;> rfl
  refine ⟨hA, hT, hR, fun op op' => by rw [hT op, hT op'], ?_, ?_, ?_, ?_, rfl⟩
  · intro op
    rw [hA op]
    rcases c t1.type t2.type with e | ty
    · cases e; simp [Except.map]
    · simp [Except.map]
  · intro op
    rw [hR op]
    rcases c t1.type t2.type with e | ty
    · cases e; simp [Except.map]
    · simp [Except.map]
  · intro s1 s2
    cases s1 <;> cases s2 <;> rfl
  · intro s1 s2
    cases s1 <;> cases s2 <;> rfl

/-! ## Cloning and printing -/

theorem Term.clone_eq (t : Term) : t.clone = t := by
  induction t with
  | IntConstant value => rfl
  | UserConstant ty value => rfl
  | VariableReference var primed => rfl
  | ArithmeticOperation op ty t1 t2 ih1 ih2 => simp only [Term.clone, ih1, ih2]

theorem Formula.clone_quantifier_free (f : Formula) (s : Store)
    (hq : f.quantifier_free = true) : f.clone s = some (f, s) := by
  induction f generalizing s with
  | FormulaBop op f1 f2 ih1 ih2 =>
    simp only [Formula.quantifier_free, Bool.and_eq_true] at hq
    simp only [Formula.clone, ih1 s hq.1, ih2 s hq.2]
  | FormulaNot f ih =>
    simp only [Formula.quantifier_free] at hq
    simp only [Formula.clone, ih s hq]
  | QuantifiedFormula qvlist f _ => simp [Formula.quantifier_free] at hq
  | Havoc vars => rfl
  | BooleanTerm t => simp only [Formula.clone, Term.clone_eq]
  | Relation op ty t1 t2 => simp only [Formula.clone, Term.clone_eq]

/-- C13: the clone of a term is the same tree: the same variant at every position with the
same operators, literal values, primed flags, cached types, operand order and referenced
variables, and it prints the same; the clone of a formula without quantifiers is the same
tree too, cloning allocates no variable and changes no use list, and the clone prints the
same. -/
theorem clone_preserves_variant_and_value (t : Term) (f : Formula) (s : Store)
    (render : ScalarType → String) (hq : f.quantifier_free = true) :
    t.clone = t ∧ t.clone.type = t.type ∧ t.clone.refs = t.refs ∧
    t.clone.print = t.print ∧
    f.clone s = some (f, s) ∧
    (∃ g s', f.clone s = some (g, s') ∧ g = f ∧ g.refs = f.refs ∧
      g.print render = f.print render ∧ s'.heap = s.heap ∧ s'.next_var = s.next_var) := by
  have ht := Term.clone_eq t
  have hf := Formula.clone_quantifier_free f s hq
  exact ⟨ht, by rw [ht], by rw [ht], by rw [ht], hf, f, s, hf, rfl, rfl, rfl, rfl, rfl⟩

/-- C13 at `( x' + 2 )` and at `( not ( x = 0 ) && havoc ( x, y ) )`. -/
theorem clone_preserves_variant_and_value_witness :
    sampleSum.print = "( x' + 2 )" ∧
    sampleGuard.print (fun _ => "Integral") = some "( not ( x = 0 ) && havoc ( x, y ) )" ∧
    sampleGuard.quantifier_free = true ∧
    (sampleSum.clone = sampleSum ∧ sampleSum.clone.type = sampleSum.type ∧
     sampleSum.clone.refs = sampleSum.refs ∧ sampleSum.clone.print = sampleSum.print ∧
     sampleGuard.clone { heap := Heap.empty, next_var := 10 }
       = some (sampleGuard, { heap := Heap.empty, next_var := 10 }) ∧
     (∃ g s', sampleGuard.clone { heap := Heap.empty, next_var := 10 } = some (g, s') ∧
       g = sampleGuard ∧ g.refs = sampleGuard.refs ∧
       g.print (fun _ => "Integral") = sampleGuard.print (fun _ => "Integral") ∧
       s'.heap = Heap.empty ∧ s'.next_var = 10)) :=
  ⟨by decide, by decide, by decide,
   clone_preserves_variant_and_value sampleSum sampleGuard
    { heap := Heap.empty, next_var := 10 } (fun _ => "Integral") (by decide)⟩

/-- C14: an `ArithmeticOperation`, a `Relation` and a `FormulaBop` print `( `, the first
child, a blank, the operator, a blank, the second child and ` )`; a `FormulaNot` prints
`not ` and its child; a formula has a text when its children have one.  The two examples
print `( 2 + 3 )` and `not ( x = 0 )`. -/
theorem infix_printing (render : ScalarType → String) :
    (∀ (op : ArithOp) (ty : DataType) (a b : Term),
      (Term.ArithmeticOperation op ty a b).print
        = "( " ++ a.print ++ " " ++ op.to_str ++ " " ++ b.print ++ " )") ∧
    (∀ (op : RelationOp) (ty : DataType) (a b : Term),
      (Formula.Relation op ty a b).print render
        = some ("( " ++ a.print ++ " " ++ op.to_str ++ " " ++ b.print ++ " )")) ∧
    (∀ (op : BoolOp) (f g : Formula),
      (Formula.FormulaBop op f g).print render
        = (f.print render).bind (fun pf => (g.print render).map (fun pg =>
            "( " ++ pf ++ " " ++ op.to_str ++ " " ++ pg ++ " )"))) ∧
    (∀ f : Formula,
      (Formula.FormulaNot f).print render = (f.print render).map (fun pf => "not " ++ pf)) ∧
    (Term.ArithmeticOperation ArithOp.Add { scalar := ScalarType.Integral, array := false }
        (Term.IntConstant 2) (Term.IntConstant 3)).print = "( 2 + 3 )" ∧
    (Formula.FormulaNot (Formula.Relation RelationOp.eq
        { scalar := ScalarType.Integral, array := false }
        (Term.VariableReference sampleX false) (Term.IntConstant 0))).print render
      = some "not ( x = 0 )" := by
  refine ⟨fun _ _ _ _ => rfl, fun _ _ _ _ => rfl, ?_, ?_, by decide, ?_⟩
  · intro op f g
    simp only [Formula.print]
    rcases f.print render with _ | pf <;> rcases g.print render with _ | pg <;> rfl
  · intro f
    simp only [Formula.print]
    rcases f.print render with _ | pf <;> rfl
  · simp only [Formula.print, Option.some.injEq]
    decide

theorem intercalate_go_append (sep : String) (rest : List String) :
    ∀ (acc x : String),
      String.intercalate.go (acc ++ x) sep rest = acc ++ String.intercalate.go x sep rest := by
  induction rest with
  | nil => intro acc x; rfl
  | cons a rest ih =>
    intro acc x
    simp only [String.intercalate.go]
    rw [String.append_assoc acc x sep, String.append_assoc acc (x ++ sep) a]
    exact ih acc (x ++ sep ++ a)

theorem to_csv_eq_intercalate (items : List String) (sep : String) :
    to_csv items sep = sep.intercalate items := by
  induction items with
  | nil => rfl
  | cons x rest ih =>
    rcases rest with _ | ⟨y, rest⟩
    · rfl
    · simp only [to_csv, ih, String.intercalate]
      show x ++ sep ++ String.intercalate.go y sep rest
        = String.intercalate.go (x ++ sep ++ y) sep rest
      rw [intercalate_go_append sep rest (x ++ sep) y]

/-- C15: a `Havoc` over a list of variables prints `havoc ( `, the names of the variables in
list order with `, ` between consecutive ones, and ` )`; over `x` and `y` it prints
`havoc ( x, y )`; constructing one and cloning one return the state of the use lists as it
was, so the use-list of every variable is unchanged. -/
theorem havoc_printing (render : ScalarType → String) (h : Heap) (vars : List Variable) :
    (Formula.Havoc vars).print render
      = some ("havoc ( " ++ ", ".intercalate (vars.map (fun v => v.name)) ++ " )") ∧
    (Formula.Havoc [sampleX, sampleY]).print render = some "havoc ( x, y )" ∧
    (Formula.Havoc []).print render = some "havoc (  )" ∧
    (Havoc.construct h vars).2 = Formula.Havoc vars ∧
    (Havoc.clone h vars).2 = Formula.Havoc vars ∧
    (∀ v, (Havoc.construct h vars).1.useList v = h.useList v) ∧
    (∀ v, (Havoc.clone h vars).1.useList v = h.useList v) ∧
    (∀ s : Store, (Formula.Havoc vars).clone s = some (Formula.Havoc vars, s)) := by
  refine ⟨?_, ?_, ?_, rfl, rfl, fun _ => rfl, fun _ => rfl, fun _ => rfl⟩
  · simp only [Formula.print, to_csv_eq_intercalate]
  · simp only [Formula.print, Option.some.injEq]
    decide
  · simp only [Formula.print, Option.some.injEq]
    decide

/-- C16: a `QuantifiedFormula` prints the quantifier, a blank, the names of the bound
variables with `, ` between consecutive ones, ` : `, the quantified type, ` . ` and the
body; a quantified type prints its scalar type, followed by `[`, the lower bound, `, `, the
upper bound and `]` exactly when it has a range.  With `Integral` rendered as `Integral`,
the example prints `forall x : Integral[0, 10] . ( x >= 0 )`. -/
theorem quantified_formula_printing (render : ScalarType → String)
    (hr : render ScalarType.Integral = "Integral") :
    (∀ (qvl : QuantifiedVariableList) (f : Formula),
      (Formula.QuantifiedFormula qvl f).print render
        = (qvl._qtype.print render).bind (fun pT => (f.print render).map (fun pf =>
            qvl._q.to_str ++ " " ++ ", ".intercalate (qvl._vars.map (fun v => v.name))
              ++ " : " ++ pT ++ " . " ++ pf))) ∧
    (∀ s : ScalarType,
      QuantifiedType.print render
        { _t := { scalar := s, array := false }, _from := none, _to := none }
        = some (render s)) ∧
    (∀ (s : ScalarType) (a b : Term),
      QuantifiedType.print render
        { _t := { scalar := s, array := false }, _from := some a, _to := some b }
        = some (render s ++ "[" ++ a.print ++ ", " ++ b.print ++ "]")) ∧
    sampleForall.print render = some "forall x : Integral[0, 10] . ( x >= 0 )" := by
  refine ⟨?_, fun _ => rfl, fun _ _ _ => rfl, ?_⟩
  · intro qvl f
    simp only [Formula.print, QuantifiedVariableList.print, to_csv_eq_intercalate]
    rcases qvl._qtype.print render with _ | pT <;> rcases f.print render with _ | pf <;> rfl
  · simp only [sampleForall, Formula.print, QuantifiedVariableList.print,
      QuantifiedType.print, DataType.scalar_type, DataType.is_scalar, hr, Bool.not_false,
      if_true, Option.some.injEq]
    decide

/-- C16 with every scalar type rendered by the name the spec gives `Integral`. -/
theorem quantified_formula_printing_witness :
    (fun _ : ScalarType => "Integral") ScalarType.Integral = "Integral" ∧
    ((∀ (qvl : QuantifiedVariableList) (f : Formula),
      (Formula.QuantifiedFormula qvl f).print (fun _ => "Integral")
        = (qvl._qtype.print (fun _ => "Integral")).bind (fun pT =>
            (f.print (fun _ => "Integral")).map (fun pf =>
              qvl._q.to_str ++ " " ++ ", ".intercalate (qvl._vars.map (fun v => v.name))
                ++ " : " ++ pT ++ " . " ++ pf))) ∧
    (∀ s : ScalarType,
      QuantifiedType.print (fun _ => "Integral")
        { _t := { scalar := s, array := false }, _from := none, _to := none }
        = some ((fun _ : ScalarType => "Integral") s)) ∧
    (∀ (s : ScalarType) (a b : Term),
      QuantifiedType.print (fun _ => "Integral")
        { _t := { scalar := s, array := false }, _from := some a, _to := some b }
        = some ((fun _ : ScalarType => "Integral") s ++ "[" ++ a.print ++ ", "
            ++ b.print ++ "]")) ∧
    sampleForall.print (fun _ => "Integral")
      = some "forall x : Integral[0, 10] . ( x >= 0 )") :=
  ⟨rfl, quantified_formula_printing (fun _ => "Integral") rfl⟩

/-- C19: each of the four `to_str` functions returns one of its symbols for every enumerant
and is injective, and no symbol belongs to two of `BoolOp`, `ArithOp` and `RelationOp`: the
operator token determines the kind of node and the operator. -/
theorem to_str_unambiguous :
    Function.Injective BoolOp.to_str ∧ Function.Injective ArithOp.to_str ∧
    Function.Injective RelationOp.to_str ∧ Function.Injective Quantifier.to_str ∧
    (∀ op : BoolOp, op.to_str ∈ ["&&", "||", "=>", "<=>"]) ∧
    (∀ op : ArithOp, op.to_str ∈ ["+", "-", "*", "/", "%"]) ∧
    (∀ op : RelationOp, op.to_str ∈ ["=", "!=", "<", "<=", ">", ">="]) ∧
    (∀ q : Quantifier, q.to_str ∈ ["forall", "exists"]) ∧
    (∀ (b : BoolOp) (a : ArithOp), b.to_str ≠ a.to_str) ∧
    (∀ (b : BoolOp) (r : RelationOp), b.to_str ≠ r.to_str) ∧
    (∀ (a : ArithOp) (r : RelationOp), a.to_str ≠ r.to_str) ∧
    Function.Injective
      (Sum.elim BoolOp.to_str (Sum.elim ArithOp.to_str RelationOp.to_str)) := by
  have hb : Function.Injective BoolOp.to_str := by
    intro a b e
    cases a <;> cases b <;> first | rfl | exact absurd e (by decide)
  have ha : Function.Injective ArithOp.to_str := by
    intro a b e
    cases a <;> cases b <;> first | rfl | exact absurd e (by decide)
  have hr : Function.Injective RelationOp.to_str := by
    intro a b e
    cases a <;> cases b <;> first | rfl | exact absurd e (by decide)
  have hq : Function.Injective Quantifier.to_str := by
    intro a b e
    cases a <;> cases b <;> first | rfl | exact absurd e (by decide)
  have hba : ∀ (b : BoolOp) (a : ArithOp), b.to_str ≠ a.to_str := by
    intro b a
    cases b <;> cases a <;> decide
  have hbr : ∀ (b : BoolOp) (r : RelationOp), b.to_str ≠ r.to_str := by
    intro b r
    cases b <;> cases r <;> decide
  have har : ∀ (a : ArithOp) (r : RelationOp), a.to_str ≠ r.to_str := by
    intro a r
    cases a <;> cases r <;> decide
  refine ⟨hb, ha, hr, hq, ?_, ?_, ?_, ?_, hba, hbr, har, ?_⟩
  · intro op; cases op <;> decide
  · intro op; cases op <;> decide
  · intro op; cases op <;> decide
  · intro q; cases q <;> decide
  · intro x y e
    rcases x with b | a | r <;> rcases y with b' | a' | r' <;>
      simp only [Sum.elim_inl, Sum.elim_inr] at e
    · rw [hb e]
    · exact absurd e (hba b a')
    · exact absurd e (hbr b r')
    · exact absurd e.symm (hba b' a)
    · rw [ha e]
    · exact absurd e (har a r')
    · exact absurd e.symm (hbr b' r)
    · exact absurd e.symm (har a' r)
    · rw [hr e]

/-! ## Reassignment -/

theorem filter_ne_erase_append (L : List Addr) (hnd : L.Nodup) (u : Addr) (c1 c2 : Prop)
    [Decidable c1] [Decidable c2] :
    ((if c1 then L.erase u else L) ++ (if c2 then [u] else [])).filter (fun b => b != u)
      = L.filter (fun b => b != u) := by
  rw [List.filter_append]
  have e2 : (if c2 then [u] else []).filter (fun b => b != u) = [] := by
    split <;> simp
  have e1 : (if c1 then L.erase u else L).filter (fun b => b != u)
      = L.filter (fun b => b != u) := by
    split
    · rw [hnd.erase_eq_filter, List.filter_filter]
      apply List.filter_congr
      intro b _
      simp
    · rfl
  rw [e1, e2, List.append_nil]

/-- C17: in a consistent state, `set ( w )` on a live use `u` ends in the state that
`release()` followed, when `w` is non-null, by the attachment of the released `u` at the
tail of the use-list of `w` ends in; afterwards `get` returns `w`; the use-list of every
variable other than the old one and `w` is unchanged; in every use-list the entries of the
other uses are the same and in the same order; `u` is exactly once in the use-list of `w`,
at its tail, also when `w` is the old variable, and in no other use-list. -/
theorem set_is_release_then_attach (h : Heap) (hw : WF h) (u : Addr) (x : VariableUse)
    (w : Option VarId) (hu : h.uses u = some x) :
    ∃ h1 h', release h u = some (h1, x._var) ∧ set h u w = some h' ∧
      (w = none → h' = h1) ∧
      (∀ v, w = some v → set h1 u (some v) = some h' ∧ h'.useList v = h1.useList v ++ [u]) ∧
      get h' u = some w ∧
      (∀ z, x._var ≠ some z → w ≠ some z → h'.useList z = h.useList z) ∧
      (∀ z, (h'.useList z).filter (fun b => b != u)
        = (h.useList z).filter (fun b => b != u)) ∧
      (∀ z, w = some z → (h'.useList z).count u = 1 ∧
        h'.useList z = (if x._var = some z then (h.useList z).erase u else h.useList z) ++ [u]) ∧
      (∀ z, w ≠ some z → u ∉ h'.useList z) ∧
      (∀ b, b ≠ u → h'.uses b = h.uses b) := by
  obtain ⟨h1, hr, hw1, hu1, ho1, hl1⟩ := release_useList hw hu
  obtain ⟨h', hs, hw', ⟨p, hu'⟩, ho', hl'⟩ := set_useList hw hu w
  have hr1 : release h1 u = some (h1, none) := by simp only [release, hu1]
  refine ⟨h1, h', hr, hs, ?_, ?_, by simp [get, hu'], ?_, ?_, ?_, ?_, ho'⟩
  · intro e
    subst e
    have : set h u none = some h1 := by simp only [set, hr]
    rw [hs] at this
    exact Option.some.inj this
  · intro v e
    subst e
    have e1 : set h1 u (some v) = set h u (some v) := by
      simp only [set, hr, hr1]
    refine ⟨by rw [e1, hs], ?_⟩
    rw [hl' v, hl1 v]
    simp
  · intro z h1z h2z
    rw [hl' z, if_neg h1z, if_neg h2z, List.append_nil]
  · intro z
    rw [hl' z]
    exact filter_ne_erase_append _ (hw.useList_nodup z) u _ _
  · intro z e
    have hm : u ∈ h'.useList z := (hw'.mem_useList_iff hu' z).2 e
    refine ⟨List.count_eq_one_of_mem (hw'.useList_nodup z) hm, ?_⟩
    rw [hl' z, if_pos e]
  · intro z e hm
    exact e ((hw'.mem_useList_iff hu' z).1 hm)

/-- C17 at use `2` of the sample state, resolved to variable `3`, reassigned to `3` and to
`8`. -/
theorem set_is_release_then_attach_witness :
    sampleHeap.useList 3 = [2, 5] ∧ sampleHeap.useList 8 = [4] ∧
    (set sampleHeap 2 (some 3)).map (fun r => (r.useList 3, r.useList 8))
      = some ([5, 2], [4]) ∧
    (set sampleHeap 2 (some 8)).map (fun r => (r.useList 3, r.useList 8))
      = some ([5], [4, 2]) ∧
    ∃ h1 h', release sampleHeap 2 = some (h1, some 3) ∧ set sampleHeap 2 (some 8) = some h' ∧
      (some 8 = none → h' = h1) ∧
      (∀ v, some 8 = some v →
        set h1 2 (some v) = some h' ∧ h'.useList v = h1.useList v ++ [2]) ∧
      get h' 2 = some (some 8) ∧
      (∀ z, some 3 ≠ some z → some 8 ≠ some z → h'.useList z = sampleHeap.useList z) ∧
      (∀ z, (h'.useList z).filter (fun b => b != 2)
        = (sampleHeap.useList z).filter (fun b => b != 2)) ∧
      (∀ z, some 8 = some z → (h'.useList z).count 2 = 1 ∧
        h'.useList z = (if some 3 = some z then (sampleHeap.useList z).erase 2
                         else sampleHeap.useList z) ++ [2]) ∧
      (∀ z, some 8 ≠ some z → 2 ∉ h'.useList z) ∧
      (∀ b, b ≠ 2 → h'.uses b = sampleHeap.uses b) :=
  ⟨rfl, rfl, rfl, rfl, set_is_release_then_attach sampleHeap sampleHeap_wf 2
    { _var := some 3, _pos := some 1, user_type := UserType.Havoc, user_ptr := none }
    (some 8) rfl⟩

/-! ## Assignment between uses -/

theorem set_pos_fresh {h h' : Heap} (hw : WF h) {a : Addr} {x : VariableUse} {w : VarId}
    (hu : h.uses a = some x) (hs : set h a (some w) = some h') :
    ∃ x', h'.uses a = some x' ∧ x'._pos = some h.next := by
  obtain ⟨h1, hr, _, hn1, hu1, _, _⟩ := release_spec hw hu
  simp only [set, hr, hu1, Option.some.injEq] at hs
  subst hs
  refine ⟨{ _var := some w, _pos := some h1.next, user_type := x.user_type,
            user_ptr := x.user_ptr }, ?_, ?_⟩
  · simp
  · simp [hn1]

theorem old_node_gone {h h' : Heap} (hw : WF h) (hw' : WF h') {d : Addr} {xd : VariableUse}
    {a : VarId} {n : NodeId} (hd : h.uses d = some xd) (hv : xd._var = some a)
    (hp : xd._pos = some n)
    (hnew : ∀ x', h'.uses d = some x' → x'._var = none ∨ x'._pos = some h.next) :
    (n, d) ∈ h._uses a ∧ ∀ z, (n, d) ∉ h'._uses z := by
  obtain ⟨m, hm, hmem⟩ := hw.resolved_entry d xd a hd hv
  rw [hp] at hm
  cases hm
  refine ⟨hmem, ?_⟩
  intro z hz
  obtain ⟨x', hx', hv', hp'⟩ := hw'.entry_live z n d hz
  rcases hnew x' hx' with e | e
  · rw [e] at hv'; cases hv'
  · rw [e] at hp'
    have hlt : n < h.next := hw.ids_lt a n d hmem
    have e2 : h.next = n := Option.some.inj hp'
    rw [e2] at hlt
    exact Nat.lt_irrefl _ hlt

theorem reattach_same {h h' : Heap} (hw : WF h) (hw' : WF h') {u : Addr} {x x' : VariableUse}
    {v : VarId} (hu : h.uses u = some x) (hv : x._var = some v)
    (hu' : h'.uses u = some x') (hv' : x'._var = some v)
    (hl : h'.useList v = (h.useList v).erase u ++ [u]) :
    get h' u = some (some v) ∧ (h'.useList v).count u = 1 ∧
      (h'.useList v).length = (h.useList v).length := by
  have hm : u ∈ h.useList v := (hw.mem_useList_iff hu v).2 hv
  have hm' : u ∈ h'.useList v := (hw'.mem_useList_iff hu' v).2 hv'
  refine ⟨by simp [get, hu', hv'], List.count_eq_one_of_mem (hw'.useList_nodup v) hm', ?_⟩
  rw [hl, List.length_append, List.length_erase_of_mem hm]
  have : 0 < (h.useList v).length := List.length_pos_of_mem hm
  simp only [List.length_singleton]
  omega

/-- C20: in a consistent state, for a use `u` resolved to `v`, both `u = u` and
`u = move ( u )` run and leave `u` resolved to `v`, exactly once in the use-list of `v` (at
its tail), whose length is unchanged; for distinct live uses `d` and `s`, `d = s` leaves
the owner tag and owner pointer of `d` as they were, makes `get` of `d` return what `get` of
`s` returns, takes the old entry of `d` out of the use-list it was in and appends `d` to the
use-list of the variable of `s`, so that `d` is once in that list and in no other, and
leaves `s` as it was and in the use-list it was in. -/
theorem assignment_keeps_single_registration (h : Heap) (hw : WF h) (u d s : Addr)
    (x xd xs : VariableUse) (v : VarId)
    (hu : h.uses u = some x) (hv : x._var = some v)
    (hd : h.uses d = some xd) (hs : h.uses s = some xs) (hds : d ≠ s) :
    (∃ h', copy_assign h u u = some h' ∧ get h' u = some (some v) ∧
      (h'.useList v).count u = 1 ∧ (h'.useList v).length = (h.useList v).length ∧
      h'.useList v = (h.useList v).erase u ++ [u]) ∧
    (∃ h', move_assign h u u = some h' ∧ get h' u = some (some v) ∧
      (h'.useList v).count u = 1 ∧ (h'.useList v).length = (h.useList v).length ∧
      h'.useList v = (h.useList v).erase u ++ [u]) ∧
    (∃ h', copy_assign h d s = some h' ∧
      utype h' d = some xd.user_type ∧ uptr h' d = some xd.user_ptr ∧
      get h' d = get h s ∧
      (∀ z, h'.useList z =
        (if xd._var = some z then (h.useList z).erase d else h.useList z)
          ++ (if xs._var = some z then [d] else [])) ∧
      (∀ z, (h'.useList z).count d = if xs._var = some z then 1 else 0) ∧
      (∀ a n, xd._var = some a → xd._pos = some n →
        (n, d) ∈ h._uses a ∧ ∀ z, (n, d) ∉ h'._uses z) ∧
      h'.uses s = some xs ∧ (∀ z, s ∈ h'.useList z ↔ s ∈ h.useList z)) := by
  refine ⟨?_, ?_, ?_⟩
  · obtain ⟨h', hset, hw', ⟨p, hu'⟩, _, hl'⟩ := set_useList hw hu (some v)
    have hL : h'.useList v = (h.useList v).erase u ++ [u] := by
      rw [hl' v, if_pos hv]; simp
    obtain ⟨g1, g2, g3⟩ := reattach_same hw hw' hu hv hu' rfl hL
    exact ⟨h', by simp only [copy_assign, get, hu, Option.map_some', hv, hset],
      g1, g2, g3, hL⟩
  · obtain ⟨h1, hr, hw1, hu1, _, hl1⟩ := release_useList hw hu
    obtain ⟨h', hset, hw', ⟨p, hu'⟩, _, hl'⟩ := set_useList hw1 hu1 (some v)
    have hL : h'.useList v = (h.useList v).erase u ++ [u] := by
      rw [hl' v, hl1 v, if_pos hv]; simp
    obtain ⟨g1, g2, g3⟩ := reattach_same hw hw' hu hv hu' rfl hL
    exact ⟨h', by simp only [move_assign, hr, hv, hset], g1, g2, g3, hL⟩
  · obtain ⟨h', hset, hw', ⟨p, hu'⟩, ho', hl'⟩ := set_useList hw hd xs._var
    have hs' : h'.uses s = some xs := by rw [ho' s (Ne.symm hds), hs]
    refine ⟨h', by simp only [copy_assign, get, hs, Option.map_some', hset],
      by simp [utype, hu'], by simp [uptr, hu'], by simp [get, hu', hs], hl', ?_, ?_, hs', ?_⟩
    · intro z
      by_cases c : xs._var = some z
      · rw [if_pos c]
        exact List.count_eq_one_of_mem (hw'.useList_nodup z)
          ((hw'.mem_useList_iff hu' z).2 c)
      · rw [if_neg c]
        exact List.count_eq_zero_of_not_mem
          (fun hm => c ((hw'.mem_useList_iff hu' z).1 hm))
    · intro a n hva hpn
      apply old_node_gone hw hw' hd hva hpn
      intro x' hx'
      rcases hsv : xs._var with _ | w
      · left
        rw [hu'] at hx'
        cases hx'
        exact hsv
      · right
        rw [hsv] at hset
        obtain ⟨x'', hx'', hp''⟩ := set_pos_fresh hw hd hset
        rw [hx'] at hx''
        cases hx''
        exact hp''
    · intro z
      rw [hw'.mem_useList_iff hs' z, hw.mem_useList_iff hs z]

/-- C20 at the sample state: use `2`, resolved to variable `3`, assigned to itself, and use
`4`, resolved to variable `8`, assigned from use `5`, which is resolved to variable `3`. -/
theorem assignment_keeps_single_registration_witness :
    sampleHeap.useList 3 = [2, 5] ∧ sampleHeap.useList 8 = [4] ∧
    (copy_assign sampleHeap 4 5).map (fun r => (r.useList 3, r.useList 8))
      = some ([2, 5, 4], []) ∧
    ((∃ h', copy_assign sampleHeap 2 2 = some h' ∧ get h' 2 = some (some 3) ∧
      (h'.useList 3).count 2 = 1 ∧ (h'.useList 3).length = (sampleHeap.useList 3).length ∧
      h'.useList 3 = (sampleHeap.useList 3).erase 2 ++ [2]) ∧
    (∃ h', move_assign sampleHeap 2 2 = some h' ∧ get h' 2 = some (some 3) ∧
      (h'.useList 3).count 2 = 1 ∧ (h'.useList 3).length = (sampleHeap.useList 3).length ∧
      h'.useList 3 = (sampleHeap.useList 3).erase 2 ++ [2]) ∧
    (∃ h', copy_assign sampleHeap 4 5 = some h' ∧
      utype h' 4 = some UserType.ArrayWrite ∧ uptr h' 4 = some (some 9) ∧
      get h' 4 = get sampleHeap 5 ∧
      (∀ z, h'.useList z =
        (if some 8 = some z then (sampleHeap.useList z).erase 4 else sampleHeap.useList z)
          ++ (if some 3 = some z then [4] else [])) ∧
      (∀ z, (h'.useList z).count 4 = if some 3 = some z then 1 else 0) ∧
      (∀ a n, some 8 = some a → some 3 = some n →
        (n, 4) ∈ sampleHeap._uses a ∧ ∀ z, (n, 4) ∉ h'._uses z) ∧
      h'.uses 5 = some { _var := some 3, _pos := some 2, user_type := UserType.Havoc,
                         user_ptr := none } ∧
      (∀ z, 5 ∈ h'.useList z ↔ 5 ∈ sampleHeap.useList z))) :=
  ⟨rfl, rfl, rfl, assignment_keeps_single_registration sampleHeap sampleHeap_wf 2 4 5
    { _var := some 3, _pos := some 1, user_type := UserType.Havoc, user_ptr := none }
    { _var := some 8, _pos := some 3, user_type := UserType.ArrayWrite, user_ptr := some 9 }
    { _var := some 3, _pos := some 2, user_type := UserType.Havoc, user_ptr := none }
    3 rfl rfl rfl rfl (by decide)⟩

/-! ## Copying a quantified binder -/

theorem clone_vars_spec (vars : List Variable) :
    ∀ next : VarId,
      (clone_vars next vars).1.map (fun v => v.name) = vars.map (fun v => v.name) ∧
      (clone_vars next vars).1.map (fun v => v.type) = vars.map (fun v => v.type) ∧
      (clone_vars next vars).1.map (fun v => v.addr) = List.range' next vars.length ∧
      (clone_vars next vars).2 = next + vars.length := by
  induction vars with
  | nil => intro next; exact ⟨rfl, rfl, rfl, rfl⟩
  | cons v rest ih =>
    intro next
    obtain ⟨h1, h2, h3, h4⟩ := ih (next + 1)
    refine ⟨?_, ?_, ?_, ?_⟩
    · simp only [clone_vars, List.map_cons, h1, Variable.clone]
    · simp only [clone_vars, List.map_cons, h2, Variable.clone]
    · simp only [clone_vars, List.map_cons, h3, Variable.clone, List.length_cons,
        List.range'_succ]
    · simp only [clone_vars, h4, List.length_cons]
      rw [Nat.add_assoc, Nat.add_comm 1]

theorem QuantifiedType.copy_of_paired (qt : QuantifiedType) (hp : qt.paired = true) :
    qt.copy = some qt := by
  obtain ⟨t, f, g⟩ := qt
  rcases f with _ | f <;> rcases g with _ | g <;>
    simp [QuantifiedType.paired, QuantifiedType.copy, Term.clone_eq] at hp ⊢

theorem Formula.clone_refs (f : Formula) :
    ∀ (s : Store) (g : Formula) (s' : Store), f.clone s = some (g, s') →
      g.refs = f.refs ∧ s'.heap = s.heap := by
  induction f with
  | FormulaBop op f1 f2 ih1 ih2 =>
    intro s g s' hc
    simp only [Formula.clone] at hc
    rcases h1 : f1.clone s with _ | ⟨g1, s1⟩
    · simp [h1] at hc
    · rcases h2 : f2.clone s1 with _ | ⟨g2, s2⟩
      · simp [h1, h2] at hc
      · simp only [h1, h2, Option.some.injEq, Prod.mk.injEq] at hc
        obtain ⟨rfl, rfl⟩ := hc
        obtain ⟨a1, b1⟩ := ih1 s g1 s1 h1
        obtain ⟨a2, b2⟩ := ih2 s1 g2 s2 h2
        exact ⟨by simp only [Formula.refs, a1, a2], by rw [b2, b1]⟩
  | FormulaNot f ih =>
    intro s g s' hc
    simp only [Formula.clone] at hc
    rcases h1 : f.clone s with _ | ⟨g1, s1⟩
    · simp [h1] at hc
    · simp only [h1, Option.some.injEq, Prod.mk.injEq] at hc
      obtain ⟨rfl, rfl⟩ := hc
      obtain ⟨a1, b1⟩ := ih s g1 s1 h1
      exact ⟨by simp only [Formula.refs, a1], b1⟩
  | QuantifiedFormula qvlist f ih =>
    intro s g s' hc
    simp only [Formula.clone, QuantifiedVariableList.copy] at hc
    rcases hq : qvlist._qtype.copy with _ | qt
    · simp [hq] at hc
    · simp only [hq] at hc
      rcases h1 : f.clone (Store.mk s.heap (clone_vars s.next_var qvlist._vars).2)
        with _ | ⟨g1, s1⟩
      · simp [h1] at hc
      · simp only [h1, Option.some.injEq, Prod.mk.injEq] at hc
        obtain ⟨rfl, rfl⟩ := hc
        obtain ⟨a1, b1⟩ := ih _ g1 s1 h1
        exact ⟨by simp only [Formula.refs, a1], b1⟩
  | Havoc vars =>
    intro s g s' hc
    simp only [Formula.clone, Option.some.injEq, Prod.mk.injEq] at hc
    obtain ⟨rfl, rfl⟩ := hc
    exact ⟨rfl, rfl⟩
  | BooleanTerm t =>
    intro s g s' hc
    simp only [Formula.clone, Term.clone_eq, Option.some.injEq, Prod.mk.injEq] at hc
    obtain ⟨rfl, rfl⟩ := hc
    exact ⟨rfl, rfl⟩
  | Relation op ty t1 t2 =>
    intro s g s' hc
    simp only [Formula.clone, Term.clone_eq, Option.some.injEq, Prod.mk.injEq] at hc
    obtain ⟨rfl, rfl⟩ := hc
    exact ⟨rfl, rfl⟩

theorem Formula.clone_total (f : Formula) :
    ∀ s : Store, f.paired = true → ∃ g s', f.clone s = some (g, s') := by
  induction f with
  | FormulaBop op f1 f2 ih1 ih2 =>
    intro s hp
    simp only [Formula.paired, Bool.and_eq_true] at hp
    obtain ⟨g1, s1, h1⟩ := ih1 s hp.1
    obtain ⟨g2, s2, h2⟩ := ih2 s1 hp.2
    exact ⟨Formula.FormulaBop op g1 g2, s2, by simp only [Formula.clone, h1, h2]⟩
  | FormulaNot f ih =>
    intro s hp
    simp only [Formula.paired] at hp
    obtain ⟨g1, s1, h1⟩ := ih s hp
    exact ⟨Formula.FormulaNot g1, s1, by simp only [Formula.clone, h1]⟩
  | QuantifiedFormula qvlist f ih =>
    intro s hp
    simp only [Formula.paired, Bool.and_eq_true] at hp
    obtain ⟨g1, s1, h1⟩ :=
      ih (Store.mk s.heap (clone_vars s.next_var qvlist._vars).2) hp.2
    exact ⟨Formula.QuantifiedFormula
        { _q := qvlist._q, _qtype := qvlist._qtype,
          _vars := (clone_vars s.next_var qvlist._vars).1 } g1, s1, by
      simp only [Formula.clone, QuantifiedVariableList.copy,
        QuantifiedType.copy_of_paired _ hp.1, h1]⟩
  | Havoc vars => intro s _; exact ⟨_, _, rfl⟩
  | BooleanTerm t => intro s _; exact ⟨_, _, rfl⟩
  | Relation op ty t1 t2 => intro s _; exact ⟨_, _, rfl⟩

/-- C18: a copy of a binder whose range bounds are both present or both absent, made when
every variable of the binder has an address below the next one to be allocated, has the
same quantifier, an equal quantified type, and as many variables, with the same names and
types in the same order, at new addresses that are distinct from each other and from those
of every variable of the original; it leaves the use lists as they were.  The clone of a
quantified formula over that binder consists of that copy and of a body whose variable
references point to the same variables as those of the original body: none of them that
points to a variable of the original binder points to a variable of the copy. -/
theorem binder_copy_is_independent_scope (l : QuantifiedVariableList) (f : Formula)
    (s : Store) (hp : l._qtype.paired = true) (hf : f.paired = true)
    (hfresh : ∀ x ∈ l._vars, x.addr < s.next_var) :
    ∃ l' s1 f' s2, l.copy s = some (l', s1) ∧
      l'._q = l._q ∧ l'._qtype = l._qtype ∧ l'._vars.length = l._vars.length ∧
      l'._vars.map (fun v => v.name) = l._vars.map (fun v => v.name) ∧
      l'._vars.map (fun v => v.type) = l._vars.map (fun v => v.type) ∧
      (∀ y ∈ l'._vars, ∀ x ∈ l._vars, y.addr ≠ x.addr) ∧
      (l'._vars.map (fun v => v.addr)).Nodup ∧
      s1.heap = s.heap ∧ (∀ v, s1.heap.useList v = s.heap.useList v) ∧
      (Formula.QuantifiedFormula l f).clone s = some (Formula.QuantifiedFormula l' f', s2) ∧
      f'.refs = f.refs ∧ (∀ r ∈ f'.refs, r ∈ l._vars → r ∉ l'._vars) ∧
      s2.heap = s.heap := by
  obtain ⟨hn, ht, ha, hnext⟩ := clone_vars_spec l._vars s.next_var
  have hcopy : l.copy s = some
      ({ _q := l._q, _qtype := l._qtype, _vars := (clone_vars s.next_var l._vars).1 },
       { heap := s.heap, next_var := (clone_vars s.next_var l._vars).2 }) := by
    simp only [QuantifiedVariableList.copy, QuantifiedType.copy_of_paired _ hp]
  obtain ⟨f', s2, hc⟩ := Formula.clone_total f
    { heap := s.heap, next_var := (clone_vars s.next_var l._vars).2 } hf
  obtain ⟨hrefs, hheap⟩ := Formula.clone_refs f _ f' s2 hc
  have hge : ∀ y ∈ (clone_vars s.next_var l._vars).1, s.next_var ≤ y.addr := by
    intro y hy
    have : y.addr ∈ List.range' s.next_var l._vars.length := by
      rw [← ha]
      exact List.mem_map.2 ⟨y, hy, rfl⟩
    exact (List.mem_range'_1.1 this).1
  have hdist : ∀ y ∈ (clone_vars s.next_var l._vars).1, ∀ x ∈ l._vars, y.addr ≠ x.addr := by
    intro y hy x hx e
    have h1 : s.next_var ≤ y.addr := hge y hy
    have h2 : x.addr < s.next_var := hfresh x hx
    rw [e] at h1
    exact Nat.lt_irrefl _ (Nat.lt_of_lt_of_le h2 h1)
  refine ⟨_, _, f', s2, hcopy, rfl, rfl, ?_, hn, ht, hdist, ?_, rfl, fun _ => rfl, ?_,
    hrefs, ?_, hheap⟩
  · have := congrArg List.length hn
    simpa using this
  · rw [ha]
    exact List.nodup_range' _ _
  · simp only [Formula.clone, hcopy, hc]
  · intro r _ hr hr'
    exact hdist r hr' r hr rfl

/-- C18 at the binder `forall x, y : Integral[0, 10]` over the body `( x <= y' )`, with `10`
the next address. -/
theorem binder_copy_is_independent_scope_witness :
    ((sampleBinder.copy { heap := sampleHeap, next_var := 10 }).map
        (fun r => r.1._vars.map (fun v => (v.addr, v.name)))) = some [(10, "x"), (11, "y")] ∧
    ∃ l' s1 f' s2, sampleBinder.copy { heap := sampleHeap, next_var := 10 } = some (l', s1) ∧
      l'._q = sampleBinder._q ∧ l'._qtype = sampleBinder._qtype ∧
      l'._vars.length = sampleBinder._vars.length ∧
      l'._vars.map (fun v => v.name) = sampleBinder._vars.map (fun v => v.name) ∧
      l'._vars.map (fun v => v.type) = sampleBinder._vars.map (fun v => v.type) ∧
      (∀ y ∈ l'._vars, ∀ x ∈ sampleBinder._vars, y.addr ≠ x.addr) ∧
      (l'._vars.map (fun v => v.addr)).Nodup ∧
      s1.heap = sampleHeap ∧ (∀ v, s1.heap.useList v = sampleHeap.useList v) ∧
      (Formula.QuantifiedFormula sampleBinder sampleBody).clone
          { heap := sampleHeap, next_var := 10 }
        = some (Formula.QuantifiedFormula l' f', s2) ∧
      f'.refs = sampleBody.refs ∧
      (∀ r ∈ f'.refs, r ∈ sampleBinder._vars → r ∉ l'._vars) ∧
      s2.heap = sampleHeap :=
  ⟨by decide, binder_copy_is_independent_scope sampleBinder sampleBody
    { heap := sampleHeap, next_var := 10 } (by decide) (by decide) (by decide)⟩

end nts
